import Mathlib

/-!
Verification development for the `SymbolicReasoningEngine` Rust library
(`src/lib.rs`).  The engine is embedded shallowly:

* `f64` is modelled by `F64`: either a finite value (idealised as a rational,
  which represents every finite double exactly for the operations the engine
  performs — the engine never does float arithmetic, only conversion of `i32`
  to double, which is exact, and comparisons) or `nan`.  IEEE comparison
  semantics with `nan` (every comparison false, inequality true) are modelled
  faithfully, because the engine's derived `PartialEq` on `FactValue::Float`
  uses IEEE equality and this is observable in cycle detection, duplicate
  suppression and rule applicability.  Infinities are not modelled; no claim
  under study distinguishes them from large finite values.
* Rust `panic!` / `expect` (fatal errors) are modelled by `Except.error` with
  the panic message; a panic is an abnormal but finite termination.
* The unbounded recursion of backward chaining is modelled with an explicit
  fuel parameter; `none` means the fuel was exhausted.  Termination of the
  Rust code corresponds to the theorem that a fuel computable from the engine
  is always sufficient.
* `HashMap<String, FactValue>` (the variable bindings) is modelled as an
  association list with `insert`-or-update semantics, `HashMap<String, Symbol>`
  (the symbol table) as a lookup function; the engine never iterates either
  map in an order-observable way.
-/

namespace SRE

/-- Model of `f64` restricted to finite values and `nan`. -/
inductive F64 where
  | finite (q : ℚ)
  | nan
deriving DecidableEq, Repr

namespace F64

/-- IEEE `<` : any comparison involving `nan` is false. -/
def flt : F64 → F64 → Bool
  | finite p, finite q => p < q
  | _, _ => false

/-- IEEE `>` : any comparison involving `nan` is false. -/
def fgt : F64 → F64 → Bool
  | finite p, finite q => q < p
  | _, _ => false

/-- IEEE `==` : false whenever `nan` is involved. -/
def feq : F64 → F64 → Bool
  | finite p, finite q => p = q
  | _, _ => false

/-- IEEE `!=` : true whenever `nan` is involved. -/
def fne (a b : F64) : Bool := !feq a b

/-- IEEE `>=` : false whenever `nan` is involved. -/
def fge : F64 → F64 → Bool
  | finite p, finite q => q ≤ p
  | _, _ => false

/-- IEEE `<=` : false whenever `nan` is involved. -/
def fle : F64 → F64 → Bool
  | finite p, finite q => p ≤ q
  | _, _ => false

/-- Whether the value is `nan`. -/
def isNan : F64 → Bool
  | nan => true
  | _ => false

end F64

/-- Source type `enum FactValue { Integer(i32), Float(f64), Boolean(bool), Text(String) }`.
The engine performs no integer arithmetic, so `i32` is modelled by `Int`
(overflow is unobservable). -/
inductive FactValue where
  | Integer (i : Int)
  | Float (f : F64)
  | Boolean (b : Bool)
  | Text (s : String)
deriving DecidableEq, Repr

/-- Rust `PartialEq` on `FactValue` (the derived instance): variant-wise
equality, with `Float` compared by IEEE `==` (so a `nan` value is not equal
to itself). -/
def FactValue.beq : FactValue → FactValue → Bool
  | .Integer a, .Integer b => a = b
  | .Float a, .Float b => F64.feq a b
  | .Boolean a, .Boolean b => a = b
  | .Text a, .Text b => a = b
  | _, _ => false

/-- Source type `struct Symbol { name, symbol_type }`. -/
structure Symbol where
  name : String
  symbol_type : String
deriving DecidableEq, Repr

/-- Source type `struct Fact { symbol, value }`. -/
structure Fact where
  symbol : Symbol
  value : FactValue
deriving DecidableEq, Repr

/-- Rust `PartialEq` on `Fact` (derived): symbol equality and `FactValue`
IEEE-style equality.  This is the equality used by `Vec::contains`,
`detect_cycle` and rule-applicability checks in the source. -/
def Fact.beq (a b : Fact) : Bool := a.symbol = b.symbol && FactValue.beq a.value b.value

/-- Model of `Vec<Fact>::contains(&x)`: some element `y` of the list satisfies
`y == x` under Rust `PartialEq`. -/
def memF (x : Fact) (l : List Fact) : Bool := l.any (fun y => Fact.beq y x)

/-- Source type `enum ComparableValue { Direct(FactValue), Symbol(Symbol), SymbolName(String) }`. -/
inductive ComparableValue where
  | Direct (v : FactValue)
  | Symbol (s : Symbol)
  | SymbolName (n : String)
deriving DecidableEq, Repr

/-- Source type `enum LogicalOperator` — the recursive expression tree of rule premises. -/
inductive LogicalOperator where
  | And (l : List LogicalOperator)
  | Or (l : List LogicalOperator)
  | Not (x : LogicalOperator)
  | AtomicFact (f : Fact)
  | GreaterThan (l r : ComparableValue)
  | LessThan (l r : ComparableValue)
  | EqualTo (l r : ComparableValue)
  | NotEqualTo (l r : ComparableValue)
  | GreaterThanOrEqualTo (l r : ComparableValue)
  | LessThanOrEqualTo (l r : ComparableValue)

/-- Source type `struct Rule { premise, conclusion }`. -/
structure Rule where
  premise : LogicalOperator
  conclusion : Fact

/-- Variable bindings: `HashMap<String, FactValue>` modelled as an
association list with insert-or-update semantics. -/
abbrev Bindings := List (String × FactValue)

/-- Model of `HashMap::insert` on the bindings model: update the entry with the given
key if present, otherwise append. -/
def insertB : Bindings → String → FactValue → Bindings
  | [], k, v => [(k, v)]
  | (k', v') :: rest, k, v =>
      if k' = k then (k, v) :: rest else (k', v') :: insertB rest k v

/-- Model of `HashMap::extend`: insert every entry of `other` into `m`. -/
def extendB (m other : Bindings) : Bindings :=
  other.foldl (fun acc kv => insertB acc kv.1 kv.2) m

/-- The keys of a bindings map are pairwise distinct (an invariant of every
map built through `assert_variable`, i.e. of every reachable engine). -/
def keysNodupB : Bindings → Bool
  | [] => true
  | (k, _) :: rest => !(rest.any (fun kv => kv.1 = k)) && keysNodupB rest

/-- Source type `struct SymbolicReasoningEngine`. -/
structure Engine where
  symbols : String → Option Symbol
  facts : List Fact
  rules : List Rule
  variable_bindings : Bindings
  debug : Bool

/-- Model of `SymbolicReasoningEngine::new()`. -/
def newEngine : Engine :=
  { symbols := fun _ => none, facts := [], rules := [], variable_bindings := [], debug := false }

/-- Source method `assert_fact`: push the fact unconditionally. -/
def assert_fact (e : Engine) (symbol : Symbol) (value : FactValue) : Engine :=
  { e with facts := e.facts ++ [{ symbol := symbol, value := value }] }

/-- Source method `assert_variable`: insert or update the binding. -/
def assert_variable (e : Engine) (var_name : String) (value : FactValue) : Engine :=
  { e with variable_bindings := insertB e.variable_bindings var_name value }

/-- Source method `define_rule`: append the rule. -/
def define_rule (e : Engine) (premise : LogicalOperator) (conclusion : Fact) : Engine :=
  { e with rules := e.rules ++ [{ premise := premise, conclusion := conclusion }] }

/-- Source method `find_symbol`. -/
def find_symbol (e : Engine) (name : String) : Bool := (e.symbols name).isSome

/-- Source method `define_symbol`: fatal "Symbol already defined" on a duplicate name. -/
def define_symbol (e : Engine) (name symbol_type : String) : Except String (Symbol × Engine) :=
  let symbol : Symbol := { name := name, symbol_type := symbol_type }
  if find_symbol e name then .error "Symbol already defined"
  else .ok (symbol, { e with symbols := fun n => if n = name then some symbol else e.symbols n })

/-- Source method `get_fact_from_symbol`: the first fact whose symbol equals the given
symbol. -/
def get_fact_from_symbol (e : Engine) (symbol : Symbol) : Option Fact :=
  e.facts.find? (fun known_fact => known_fact.symbol = symbol)

/-- The numeric reading of a single `FactValue` (the inner `match` of
`get_fact_value`): `Integer` and `Float` convert to a double, the other
variants give `None`.  Conversion of `i32` to `f64` is exact. -/
def FactValue.toNum : FactValue → Option F64
  | .Integer i => some (.finite (i : ℚ))
  | .Float f => some f
  | _ => none

/-- Source method `get_fact_value`: `find_map` over the fact list — the first fact whose
symbol matches AND whose value is numeric (a symbol-matching fact with a
non-numeric value makes the closure return `None`, so the scan continues). -/
def get_fact_value (e : Engine) (fact : Fact) : Option F64 :=
  e.facts.findSome? (fun known_fact =>
    if known_fact.symbol = fact.symbol then known_fact.value.toNum else none)

/-- Source method `resolve_comparable_value`: reduce a comparison operand to a double;
fatal errors are the source's panic messages. -/
def resolve_comparable_value (e : Engine) : ComparableValue → Except String F64
  | .Direct fv =>
      match fv with
      | .Integer i => .ok (.finite (i : ℚ))
      | .Float f => .ok f
      | _ => .error "Unsupported FactValue type from ComparableValue::Direct for conversion to f64"
  | .Symbol symbol =>
      match get_fact_from_symbol e symbol with
      | none => .error "Symbol not found in knowledge base"
      | some fact =>
          match get_fact_value e fact with
          | some val => .ok val
          | none =>
              .error "Unsupported FactValue type from ComparableValue::Symbol for conversion to f64"
  | .SymbolName symbol_name =>
      match e.symbols symbol_name with
      | none => .error "Symbol not found in knowledge base"
      | some symbol =>
          match get_fact_from_symbol e symbol with
          | none => .error "Symbol not found in knowledge base"
          | some fact =>
              match get_fact_value e fact with
              | some val => .ok val
              | none =>
                  .error
                    "Unsupported FactValue type from ComparableValue::SymbolName for conversion to f64"

/-- Source method `compare_values`: resolve both operands (left first, as in the source),
then apply the comparison. -/
def compare_values (e : Engine) (left right : ComparableValue)
    (comparison : F64 → F64 → Bool) : Except String Bool :=
  match resolve_comparable_value e left with
  | .error m => .error m
  | .ok left_value =>
      match resolve_comparable_value e right with
      | .error m => .error m
      | .ok right_value => .ok (comparison left_value right_value)

/-- Source method `match_fact(fact, known_fact)`: symbols must match, then variant-wise
value equality (floats by IEEE `==`). -/
def match_fact (fact known_fact : Fact) : Bool :=
  if fact.symbol ≠ known_fact.symbol then false
  else
    match fact.value, known_fact.value with
    | .Integer l, .Integer r => l = r
    | .Float l, .Float r => F64.feq l r
    | .Boolean l, .Boolean r => l = r
    | .Text l, .Text r => l = r
    | _, _ => false

mutual

/-- Source method `is_premise_true`: the boolean-mode recursive evaluator used by the
simple forward chainer.  A `compare_values` panic aborts the evaluation. -/
def is_premise_true (e : Engine) : LogicalOperator → Except String Bool
  | .And expressions => all_premises_true e expressions
  | .Or expressions => any_premise_true e expressions
  | .Not expression =>
      match is_premise_true e expression with
      | .error m => .error m
      | .ok res => .ok (!res)
  | .AtomicFact fact => .ok (memF fact e.facts)
  | .GreaterThan l r => compare_values e l r F64.fgt
  | .LessThan l r => compare_values e l r F64.flt
  | .EqualTo l r => compare_values e l r F64.feq
  | .NotEqualTo l r => compare_values e l r F64.fne
  | .GreaterThanOrEqualTo l r => compare_values e l r F64.fge
  | .LessThanOrEqualTo l r => compare_values e l r F64.fle

/-- Model of `Iterator::all` over `is_premise_true`, short-circuiting on the first
false child (so a panic in a later child is not reached). -/
def all_premises_true (e : Engine) : List LogicalOperator → Except String Bool
  | [] => .ok true
  | x :: xs =>
      match is_premise_true e x with
      | .error m => .error m
      | .ok true => all_premises_true e xs
      | .ok false => .ok false

/-- Model of `Iterator::any` over `is_premise_true`, short-circuiting on the first
true child. -/
def any_premise_true (e : Engine) : List LogicalOperator → Except String Bool
  | [] => .ok false
  | x :: xs =>
      match is_premise_true e x with
      | .error m => .error m
      | .ok true => .ok true
      | .ok false => any_premise_true e xs

end

/-- The collection loop of `forward_chaining`: for each rule in order, if the
premise is true and the conclusion is not already in the (pre-pass) fact
list, stage the conclusion. -/
def forward_chaining_collect (e : Engine) : List Rule → Except String (List Fact)
  | [] => .ok []
  | rule :: rest =>
      match is_premise_true e rule.premise with
      | .error m => .error m
      | .ok fires =>
          match forward_chaining_collect e rest with
          | .error m => .error m
          | .ok tail =>
              if fires && !(memF rule.conclusion e.facts) then .ok (rule.conclusion :: tail)
              else .ok tail

/-- Source method `forward_chaining`: one pass over the rules against the pre-call facts,
then append all staged conclusions. -/
def forward_chaining (e : Engine) : Except String Engine :=
  match forward_chaining_collect e e.rules with
  | .error m => .error m
  | .ok new_facts => .ok { e with facts := e.facts ++ new_facts }

/-- Source method `detect_cycle`: `visited.contains(current)` under Rust `PartialEq`. -/
def detect_cycle (current : Fact) (visited : List Fact) : Bool := memF current visited

/-- Result of one `evaluate_logical_expression` call: the optional extended
bindings (`None` = the expression is false) together with the state of the
`visited` list after the call (the source threads it as `&mut`). -/
abbrev EvalRes := Option Bindings × Option (List Fact)

mutual

/-- Source method `evaluate_logical_expression(expression, existing_bindings,
use_backward_chaining, visited)`.  The outer `Option` is fuel exhaustion,
`Except.error` a propagated panic.  The `visited` list is threaded through in
state-passing style, mirroring the `&mut Option<&mut Vec<Fact>>` argument. -/
def evaluate_logical_expression (fuel : Nat) (e : Engine) (expression : LogicalOperator)
    (existing_bindings : Bindings) (bc : Bool) (visited : Option (List Fact)) :
    Option (Except String EvalRes) :=
  match expression with
  | .And expressions => evaluate_and_list fuel e expressions existing_bindings bc visited
  | .Or expressions => evaluate_or_list fuel e expressions existing_bindings bc visited
  | .Not expression =>
      match evaluate_logical_expression fuel e expression existing_bindings bc visited with
      | none => none
      | some (.error m) => some (.error m)
      | some (.ok (none, v')) => some (.ok (some existing_bindings, v'))
      | some (.ok (some _, v')) => some (.ok (none, v'))
  | .AtomicFact fact =>
      if bc then
        if e.facts.any (fun known_fact => match_fact fact known_fact) then
          some (.ok (some existing_bindings, visited))
        else
          match visited with
          | some visited_facts =>
              match search_for_rules fuel e fact visited_facts with
              | none => none
              | some (.error m) => some (.error m)
              | some (.ok (true, v')) => some (.ok (some existing_bindings, some v'))
              | some (.ok (false, v')) => some (.ok (none, some v'))
          | none =>
              some (.error
                "Backward chaining calls to evaluate_logical_expression must provide visited rules")
      else
        if e.facts.any (fun known_fact => match_fact fact known_fact) then
          some (.ok (some existing_bindings, visited))
        else
          some (.ok (none, visited))
  | .GreaterThan l r =>
      match compare_values e l r F64.fgt with
      | .error m => some (.error m)
      | .ok true => some (.ok (some existing_bindings, visited))
      | .ok false => some (.ok (none, visited))
  | .LessThan l r =>
      match compare_values e l r F64.flt with
      | .error m => some (.error m)
      | .ok true => some (.ok (some existing_bindings, visited))
      | .ok false => some (.ok (none, visited))
  | .EqualTo l r =>
      match compare_values e l r F64.feq with
      | .error m => some (.error m)
      | .ok true => some (.ok (some existing_bindings, visited))
      | .ok false => some (.ok (none, visited))
  | .NotEqualTo l r =>
      match compare_values e l r F64.fne with
      | .error m => some (.error m)
      | .ok true => some (.ok (some existing_bindings, visited))
      | .ok false => some (.ok (none, visited))
  | .GreaterThanOrEqualTo l r =>
      match compare_values e l r F64.fge with
      | .error m => some (.error m)
      | .ok true => some (.ok (some existing_bindings, visited))
      | .ok false => some (.ok (none, visited))
  | .LessThanOrEqualTo l r =>
      match compare_values e l r F64.fle with
      | .error m => some (.error m)
      | .ok true => some (.ok (some existing_bindings, visited))
      | .ok false => some (.ok (none, visited))
termination_by (fuel, sizeOf expression)

/-- The `And` loop: children are evaluated left to right against the
accumulated bindings (replace, not merge); the first false child
short-circuits.  `visited` mutations persist across children. -/
def evaluate_and_list (fuel : Nat) (e : Engine) (l : List LogicalOperator)
    (combined_bindings : Bindings) (bc : Bool) (visited : Option (List Fact)) :
    Option (Except String EvalRes) :=
  match l with
  | [] => some (.ok (some combined_bindings, visited))
  | x :: xs =>
      match evaluate_logical_expression fuel e x combined_bindings bc visited with
      | none => none
      | some (.error m) => some (.error m)
      | some (.ok (none, v')) => some (.ok (none, v'))
      | some (.ok (some bindings, v')) => evaluate_and_list fuel e xs bindings bc v'
termination_by (fuel, sizeOf l)

/-- The `Or` loop (`find_map`): children are evaluated left to right against
the incoming bindings; the first true child short-circuits.  `visited`
mutations persist across children. -/
def evaluate_or_list (fuel : Nat) (e : Engine) (l : List LogicalOperator)
    (existing_bindings : Bindings) (bc : Bool) (visited : Option (List Fact)) :
    Option (Except String EvalRes) :=
  match l with
  | [] => some (.ok (none, visited))
  | x :: xs =>
      match evaluate_logical_expression fuel e x existing_bindings bc visited with
      | none => none
      | some (.error m) => some (.error m)
      | some (.ok (some bindings, v')) => some (.ok (some bindings, v'))
      | some (.ok (none, v')) => evaluate_or_list fuel e xs existing_bindings bc v'
termination_by (fuel, sizeOf l)

/-- Source method `search_for_rules(goal, visited)`: cycle guard, direct value-only hit,
push the goal, try every rule whose conclusion equals the goal, pop on the
false path.  Returns the result together with the final `visited` list. -/
def search_for_rules (fuel : Nat) (e : Engine) (goal : Fact) (visited : List Fact) :
    Option (Except String (Bool × List Fact)) :=
  match fuel with
  | 0 => none
  | fuel + 1 =>
      if detect_cycle goal visited then some (.ok (false, visited))
      else if e.facts.any (fun known_fact => FactValue.beq known_fact.value goal.value) then
        some (.ok (true, visited))
      else
        search_applicable_rules fuel e
          (e.rules.filter (fun rule => Fact.beq rule.conclusion goal)) (visited ++ [goal])
termination_by (fuel, 0)

/-- The loop over the applicable rules of `search_for_rules`: evaluate each
premise in backward-chaining mode with the shared `visited` list; return true
on the first satisfied premise (without popping), pop the last element of
`visited` when every rule failed. -/
def search_applicable_rules (fuel : Nat) (e : Engine) (rules : List Rule)
    (visited : List Fact) : Option (Except String (Bool × List Fact)) :=
  match rules with
  | [] => some (.ok (false, visited.dropLast))
  | rule :: rest =>
      match evaluate_logical_expression fuel e rule.premise e.variable_bindings true
          (some visited) with
      | none => none
      | some (.error m) => some (.error m)
      | some (.ok (some _, some v')) => some (.ok (true, v'))
      | some (.ok (none, some v')) => search_applicable_rules fuel e rest v'
      | some (.ok (_, none)) => none
termination_by (fuel, 1 + sizeOf rules)
decreasing_by
  · apply Prod.Lex.right
    cases rule with
    | mk premise conclusion => simp +arith [List.cons.sizeOf_spec, Rule.mk.sizeOf_spec]
  · apply Prod.Lex.right
    simp +arith [List.cons.sizeOf_spec]

end

/-- Source method `match_rule`: evaluate a premise in forward mode against the current
bindings.  Forward mode never recurses into `search_for_rules`, so the fuel
argument is irrelevant (`forward_mode_isSome` below); `0` is passed. -/
def match_rule (e : Engine) (premise : LogicalOperator) :
    Option (Except String (Option Bindings)) :=
  (evaluate_logical_expression 0 e premise e.variable_bindings false none).map
    (Except.map Prod.fst)

/-- The rule loop of one iteration of `forward_chaining_with_variables`:
for each rule in order evaluate the premise in forward mode against the
current (threaded) bindings; on success extend the bindings with the result
and stage the conclusion. -/
def fcwv_rule_pass (e : Engine) :
    List Rule → Bindings → List Fact → Option (Except String (Bindings × List Fact))
  | [], b, conclusions_to_add => some (.ok (b, conclusions_to_add))
  | rule :: rest, b, conclusions_to_add =>
      match evaluate_logical_expression 0 e rule.premise b false none with
      | none => none
      | some (.error m) => some (.error m)
      | some (.ok (some bindings, _)) =>
          fcwv_rule_pass e rest (extendB b bindings) (conclusions_to_add ++ [rule.conclusion])
      | some (.ok (none, _)) => fcwv_rule_pass e rest b conclusions_to_add

/-- The append loop of one iteration of `forward_chaining_with_variables`:
push each staged conclusion not already contained (checked against the
growing fact list); the flag records whether anything was pushed. -/
def fcwv_append : List Fact → List Fact → List Fact × Bool
  | facts, [] => (facts, false)
  | facts, c :: cs =>
      if memF c facts then fcwv_append facts cs
      else ((fcwv_append (facts ++ [c]) cs).1, true)

/-- Source method `forward_chaining_with_variables`: iterate rule passes until an
iteration adds no new fact.  The `while` loop of the source can diverge
(e.g. a satisfiable rule whose conclusion has a `nan` float value is re-added
forever), so the loop carries fuel; `none` = the loop has not finished. -/
def forward_chaining_with_variables : Nat → Engine → Option (Except String Engine)
  | 0, _ => none
  | fuel + 1, e =>
      match fcwv_rule_pass e e.rules e.variable_bindings [] with
      | none => none
      | some (.error m) => some (.error m)
      | some (.ok (b, conclusions_to_add)) =>
          let fa := fcwv_append e.facts conclusions_to_add
          let e' : Engine := { e with variable_bindings := b, facts := fa.1 }
          if fa.2 then forward_chaining_with_variables fuel e' else some (.ok e')

mutual

/-- All facts occurring in `AtomicFact` leaves of an expression. -/
def atoms : LogicalOperator → List Fact
  | .And l => atoms_list l
  | .Or l => atoms_list l
  | .Not x => atoms x
  | .AtomicFact f => [f]
  | .GreaterThan _ _ => []
  | .LessThan _ _ => []
  | .EqualTo _ _ => []
  | .NotEqualTo _ _ => []
  | .GreaterThanOrEqualTo _ _ => []
  | .LessThanOrEqualTo _ _ => []

/-- Extension of `atoms` over a list of expressions. -/
def atoms_list : List LogicalOperator → List Fact
  | [] => []
  | x :: xs => atoms x ++ atoms_list xs

end

/-- All `AtomicFact` facts occurring in the premises of the engine's rules:
the only facts backward chaining can ever recurse on. -/
def rule_atoms (e : Engine) : List Fact :=
  e.rules.foldr (fun r acc => atoms r.premise ++ acc) []

/-- A fact whose value is the float `nan` (such a fact never equals anything
under Rust `PartialEq`, itself included). -/
def isNanFact (f : Fact) : Bool :=
  match f.value with
  | .Float .nan => true
  | _ => false

/-- The candidate subgoals that can actually be pushed onto `visited` and
re-entered: non-`nan` atoms of rule premises. -/
def cand_goals (e : Engine) : Finset Fact :=
  ((rule_atoms e).filter (fun f => !isNanFact f)).toFinset

/-- Fuel sufficient for any backward-chaining search (proved below):
the recursion depth is bounded by the number of distinct rule atoms. -/
def fuel_bound (e : Engine) : Nat := 2 + (rule_atoms e).length

/-- Source method `specify_goal`: run `search_for_rules` on a fresh `visited` list.
The fuel `fuel_bound e` is always sufficient (`c2` below). -/
def specify_goal (e : Engine) (goal : Fact) : Option (Except String Bool) :=
  (search_for_rules (fuel_bound e) e goal []).map (Except.map Prod.fst)

/-! ### Derived boolean views and concrete material used by the theorems -/

/-- Whether a premise evaluates to true in boolean mode without a panic. -/
def premise_fires (e : Engine) (r : Rule) : Bool :=
  match is_premise_true e r.premise with
  | .ok true => true
  | _ => false

/-- Whether a rule's premise is satisfied (returns `Some` bindings) in
forward variable mode — the condition under which
`forward_chaining_with_variables` stages the rule's conclusion. -/
def rule_fires_fw (e : Engine) (r : Rule) : Bool :=
  match evaluate_logical_expression 0 e r.premise e.variable_bindings false none with
  | some (.ok (some _, _)) => true
  | _ => false

/-- Truth content of an evaluation result: keeps fuel exhaustion and panics,
drops the bindings and the visited list. -/
def truthOf (r : Option (Except String EvalRes)) : Option (Except String Bool) :=
  match r with
  | none => none
  | some (.error m) => some (.error m)
  | some (.ok (ob, _)) => some (.ok ob.isSome)

/-- Conclusion-list content of a rule-pass result. -/
def passConcl (r : Option (Except String (Bindings × List Fact))) :
    Option (Except String (List Fact)) :=
  match r with
  | none => none
  | some (.error m) => some (.error m)
  | some (.ok (_, c)) => some (.ok c)

/-- No two entries of the list are equal under Rust `PartialEq` — the
"no duplicates by structural equality" property of the spec. -/
def factsNoDupB : List Fact → Bool
  | [] => true
  | f :: fs => !memF f fs && factsNoDupB fs

/-- Concrete symbols for witnesses and counterexamples. -/
def symA : Symbol := ⟨"A", "Integer"⟩

/-- Second integer symbol, distinct from `symA`. -/
def symB : Symbol := ⟨"B", "Integer"⟩

/-- String-typed weather symbol. -/
def symW : Symbol := ⟨"Weather", "String"⟩

/-- Boolean-typed conclusion symbol. -/
def symP : Symbol := ⟨"Picnic", "Boolean"⟩

/-- Boolean-typed helper symbol. -/
def symQ : Symbol := ⟨"Q", "Boolean"⟩

/-- Weather fact used in premises. -/
def factW : Fact := ⟨symW, .Text "Sunny"⟩

/-- Conclusion fact. -/
def factP : Fact := ⟨symP, .Boolean true⟩

/-- Absent fact used inside trivially true `Not` premises. -/
def factQ : Fact := ⟨symQ, .Boolean true⟩

/-- Engine with one fact `A = 5`; the direct-hit check ignores the symbol,
so the goal `B = 5` hits it. -/
def c1_engine : Engine := assert_fact newEngine symA (.Integer 5)

/-- Goal with a different symbol but the same value as the stored fact. -/
def c1_goal : Fact := ⟨symB, .Integer 5⟩

/-- Engine with two rules staging the same conclusion from trivially true
premises: `forward_chaining` stages it twice. -/
def c3_engine : Engine :=
  define_rule (define_rule newEngine (.Not (.AtomicFact factQ)) factP)
    (.Not (.AtomicFact factQ)) factP

/-- Engine whose first fact for `symA` is text and whose second is numeric:
comparison resolution by symbol skips the text fact. -/
def c4_engine : Engine :=
  assert_fact (assert_fact newEngine symA (.Text "x")) symA (.Integer 5)

/-- Engine with one fact and one applicable rule; used to exercise both
chainers and the backward search. -/
def fw_engine : Engine :=
  define_rule (assert_fact newEngine symW (.Text "Sunny")) (.AtomicFact factW) factP

/-- The state of `fw_engine` after its rule has fired once. -/
def fw_engine' : Engine := { fw_engine with facts := [factW, factP] }

/-! ### Basic lemmas about the Rust `PartialEq` model -/

theorem F64.feq_imp_eq {a b : F64} (h : F64.feq a b = true) : a = b := by
  cases a <;> cases b <;> simp_all [F64.feq]

theorem factvalue_beq_imp_eq {a b : FactValue} (h : FactValue.beq a b = true) : a = b := by
  cases a <;> cases b <;> simp_all [FactValue.beq]
  exact F64.feq_imp_eq h

theorem fact_beq_imp_eq {a b : Fact} (h : Fact.beq a b = true) : a = b := by
  cases a with
  | mk s v =>
    cases b with
    | mk s' v' =>
      simp only [Fact.beq, Bool.and_eq_true, decide_eq_true_eq] at h
      simp [h.1, factvalue_beq_imp_eq h.2]

theorem fact_beq_nan {a b : Fact} (h : isNanFact b = true) : Fact.beq a b = false := by
  cases a with
  | mk s v =>
    cases b with
    | mk s' v' =>
      cases v' with
      | Float f =>
        cases f with
        | nan =>
          simp only [Fact.beq]
          have hv : FactValue.beq v (.Float .nan) = false := by
            cases v with
            | Integer i => rfl
            | Boolean b => rfl
            | Text t => rfl
            | Float g => cases g <;> rfl
          rw [hv]
          simp
        | finite q => simp [isNanFact] at h
      | _ => simp [isNanFact] at h

theorem fact_beq_self {a : Fact} (h : isNanFact a = false) : Fact.beq a a = true := by
  cases a with
  | mk s v =>
    cases v with
    | Float f =>
      cases f with
      | nan => simp [isNanFact] at h
      | finite q => simp [Fact.beq, FactValue.beq, F64.feq]
    | _ => simp [Fact.beq, FactValue.beq]

theorem fact_beq_of_eq {a b : Fact} (hn : isNanFact b = false) (h : a = b) :
    Fact.beq a b = true := by
  subst h
  exact fact_beq_self hn

theorem fact_beq_right_notnan {a b : Fact} (h : Fact.beq a b = true) : isNanFact b = false := by
  by_contra hb
  rw [fact_beq_nan (Bool.of_not_eq_false hb)] at h
  exact Bool.false_ne_true h

theorem memF_imp_mem {x : Fact} {l : List Fact} (h : memF x l = true) : x ∈ l := by
  simp only [memF, List.any_eq_true] at h
  obtain ⟨y, hy, hbeq⟩ := h
  exact (fact_beq_imp_eq hbeq) ▸ hy

theorem mem_imp_memF {x : Fact} {l : List Fact} (hn : isNanFact x = false) (h : x ∈ l) :
    memF x l = true := by
  simp only [memF, List.any_eq_true]
  exact ⟨x, h, fact_beq_self hn⟩

theorem memF_false_imp_not_mem {x : Fact} {l : List Fact} (hn : isNanFact x = false)
    (h : memF x l = false) : x ∉ l := by
  intro hmem
  rw [mem_imp_memF hn hmem] at h
  exact absurd h (by simp)

theorem memF_append {x : Fact} {a b : List Fact} :
    memF x (a ++ b) = (memF x a || memF x b) := by
  simp [memF, List.any_append]

/-! ### The `visited` list only grows at the bottom -/

/-- The second list extends the first at the top of the stack: all existing
entries (in particular every goal of an enclosing `search_for_rules` call)
are preserved. -/
def VisExt (v v' : List Fact) : Prop := ∃ t, v' = v ++ t

theorem VisExt.refl (v : List Fact) : VisExt v v := ⟨[], by simp⟩

theorem VisExt.trans {a b c : List Fact} (h1 : VisExt a b) (h2 : VisExt b c) : VisExt a c := by
  obtain ⟨t1, rfl⟩ := h1
  obtain ⟨t2, rfl⟩ := h2
  exact ⟨t1 ++ t2, by simp⟩

theorem VisExt.push (v : List Fact) (g : Fact) : VisExt v (v ++ [g]) := ⟨[g], rfl⟩

theorem VisExt.subset {a b : List Fact} (h : VisExt a b) : a ⊆ b := by
  obtain ⟨t, rfl⟩ := h
  exact List.subset_append_left a t

theorem VisExt.memF_mono {a b : List Fact} (h : VisExt a b) {x : Fact}
    (hx : memF x a = true) : memF x b = true := by
  obtain ⟨t, rfl⟩ := h
  rw [memF_append, hx, Bool.true_or]

theorem VisExt.dropLast {a b : List Fact} (h : VisExt a b) :
    VisExt a.dropLast b.dropLast := by
  obtain ⟨t, rfl⟩ := h
  cases t with
  | nil => simpa using VisExt.refl a.dropLast
  | cons x xs =>
    rw [List.dropLast_append_cons]
    rcases List.eq_nil_or_concat a with rfl | ⟨ys, y, rfl⟩
    · exact ⟨List.dropLast (x :: xs), by simp⟩
    · rw [List.concat_eq_append, List.dropLast_concat]
      exact ⟨[y] ++ (x :: xs).dropLast, by simp⟩

theorem visext_concat_dropLast {v : List Fact} {g : Fact} : (v ++ [g]).dropLast = v := by
  simp

/-! ### The search measure -/

/-- Number of candidate subgoals not yet on the `visited` path. -/
def Sm (e : Engine) (v : List Fact) : Nat :=
  ((cand_goals e).filter (fun g => g ∉ v)).card

theorem Sm_le_of_subset {e : Engine} {v v' : List Fact} (h : v ⊆ v') :
    Sm e v' ≤ Sm e v := by
  apply Finset.card_le_card
  intro g hg
  simp only [Finset.mem_filter] at hg ⊢
  exact ⟨hg.1, fun hm => hg.2 (h hm)⟩

theorem Sm_push_lt {e : Engine} {v : List Fact} {g : Fact}
    (hc : g ∈ cand_goals e) (hv : g ∉ v) : Sm e (v ++ [g]) + 1 ≤ Sm e v := by
  have hmem : g ∈ (cand_goals e).filter (fun g => g ∉ v) := by
    simp only [Finset.mem_filter]
    exact ⟨hc, hv⟩
  have hsub : (cand_goals e).filter (fun x => x ∉ v ++ [g]) ⊆
      ((cand_goals e).filter (fun x => x ∉ v)).erase g := by
    intro x hx
    simp only [Finset.mem_filter, List.mem_append, List.mem_singleton] at hx
    simp only [Finset.mem_erase, Finset.mem_filter]
    refine ⟨fun hxg => hx.2 (Or.inr hxg), hx.1, fun hm => hx.2 (Or.inl hm)⟩
  have h1 : ((cand_goals e).filter (fun x => x ∉ v ++ [g])).card ≤
      (((cand_goals e).filter (fun x => x ∉ v)).erase g).card :=
    Finset.card_le_card hsub
  have h2 : (((cand_goals e).filter (fun x => x ∉ v)).erase g).card =
      ((cand_goals e).filter (fun x => x ∉ v)).card - 1 :=
    Finset.card_erase_of_mem hmem
  have h3 : 1 ≤ ((cand_goals e).filter (fun x => x ∉ v)).card :=
    Finset.card_pos.mpr ⟨g, hmem⟩
  unfold Sm
  omega

theorem Sm_nil_le (e : Engine) : Sm e [] ≤ (rule_atoms e).length := by
  calc Sm e [] ≤ (cand_goals e).card := Finset.card_filter_le _ _
    _ ≤ ((rule_atoms e).filter (fun f => !isNanFact f)).length := List.toFinset_card_le _
    _ ≤ (rule_atoms e).length := List.length_filter_le _ _

/-! ### Atoms of rule premises -/

theorem atoms_list_sub {x : LogicalOperator} {l : List LogicalOperator} (hx : x ∈ l) :
    atoms x ⊆ atoms_list l := by
  induction l with
  | nil => cases hx
  | cons y ys ih =>
    rcases List.mem_cons.mp hx with rfl | hx
    · intro a ha
      rw [atoms_list]
      exact List.mem_append_left _ ha
    · intro a ha
      rw [atoms_list]
      exact List.mem_append_right _ (ih hx ha)

theorem atoms_sub_foldr {r : Rule} {rs : List Rule} (hr : r ∈ rs) :
    atoms r.premise ⊆ rs.foldr (fun s acc => atoms s.premise ++ acc) [] := by
  induction rs with
  | nil => cases hr
  | cons s ss ih =>
    rcases List.mem_cons.mp hr with rfl | hr
    · intro a ha
      exact List.mem_append_left _ ha
    · intro a ha
      exact List.mem_append_right _ (ih hr ha)

theorem rule_atoms_sub {e : Engine} {r : Rule} (hr : r ∈ e.rules) :
    atoms r.premise ⊆ rule_atoms e := by
  unfold rule_atoms
  exact atoms_sub_foldr hr

/-- Every `AtomicFact` leaf of the expression occurs among the engine's rule
atoms: true of every rule premise of the engine. -/
def ClosedE (e : Engine) (x : LogicalOperator) : Prop :=
  ∀ a ∈ atoms x, a ∈ rule_atoms e

theorem closedE_of_rule {e : Engine} {r : Rule} (hr : r ∈ e.rules) : ClosedE e r.premise :=
  fun _ ha => rule_atoms_sub hr ha

theorem mem_cand_goals {e : Engine} {a : Fact} (ha : a ∈ rule_atoms e)
    (hn : isNanFact a = false) : a ∈ cand_goals e := by
  unfold cand_goals
  rw [List.mem_toFinset, List.mem_filter]
  exact ⟨ha, by simp [hn]⟩

/-! ### The `visited` list, threaded through evaluation, never loses entries
below the current stack top.  During a call to `search_for_rules` on `goal`
the entry pushed for `goal` (and everything below it) survives every nested
evaluation; the final pop can only remove the top of the stack. -/

mutual

theorem visext_eval (fuel : Nat) (e : Engine) (x : LogicalOperator) (b : Bindings)
    (bc : Bool) (vl : List Fact) (ob : Option Bindings) (vout : Option (List Fact))
    (h : evaluate_logical_expression fuel e x b bc (some vl) = some (.ok (ob, vout))) :
    ∃ vl', vout = some vl' ∧ VisExt vl vl' :=
  match x, h with
  | .And l, h => by
    rw [evaluate_logical_expression.eq_def] at h
    dsimp only at h
    exact visext_and fuel e l b bc vl ob vout h
  | .Or l, h => by
    rw [evaluate_logical_expression.eq_def] at h
    dsimp only at h
    exact visext_or fuel e l b bc vl ob vout h
  | .Not inner, h => by
    rw [evaluate_logical_expression.eq_def] at h
    dsimp only at h
    cases heval : evaluate_logical_expression fuel e inner b bc (some vl) with
    | none => rw [heval] at h; simp at h
    | some r =>
      cases r with
      | error m => rw [heval] at h; simp at h
      | ok p =>
        obtain ⟨ob', vout'⟩ := p
        cases ob' with
        | none =>
          rw [heval] at h
          simp only [Option.some.injEq, Except.ok.injEq, Prod.mk.injEq] at h
          exact h.2 ▸ visext_eval fuel e inner b bc vl none vout' heval
        | some b' =>
          rw [heval] at h
          simp only [Option.some.injEq, Except.ok.injEq, Prod.mk.injEq] at h
          exact h.2 ▸ visext_eval fuel e inner b bc vl (some b') vout' heval
  | .AtomicFact fact, h => by
    rw [evaluate_logical_expression.eq_def] at h
    dsimp only at h
    cases bc with
    | false =>
      simp only [Bool.false_eq_true, if_false] at h
      by_cases hany : (e.facts.any fun known_fact => match_fact fact known_fact) = true
      · rw [if_pos hany] at h
        simp only [Option.some.injEq, Except.ok.injEq, Prod.mk.injEq] at h
        exact ⟨vl, h.2.symm, VisExt.refl vl⟩
      · rw [if_neg hany] at h
        simp only [Option.some.injEq, Except.ok.injEq, Prod.mk.injEq] at h
        exact ⟨vl, h.2.symm, VisExt.refl vl⟩
    | true =>
      simp only [if_true] at h
      by_cases hany : (e.facts.any fun known_fact => match_fact fact known_fact) = true
      · rw [if_pos hany] at h
        simp only [Option.some.injEq, Except.ok.injEq, Prod.mk.injEq] at h
        exact ⟨vl, h.2.symm, VisExt.refl vl⟩
      · rw [if_neg hany] at h
        cases hs : search_for_rules fuel e fact vl with
        | none => rw [hs] at h; simp at h
        | some r =>
          cases r with
          | error m => rw [hs] at h; simp at h
          | ok p =>
            obtain ⟨res, v'⟩ := p
            have hve : VisExt vl v' := visext_search fuel e fact vl res v' hs
            cases res with
            | true =>
              rw [hs] at h
              simp only [Option.some.injEq, Except.ok.injEq, Prod.mk.injEq] at h
              exact ⟨v', h.2.symm, hve⟩
            | false =>
              rw [hs] at h
              simp only [Option.some.injEq, Except.ok.injEq, Prod.mk.injEq] at h
              exact ⟨v', h.2.symm, hve⟩
  | .GreaterThan l r, h => by
    rw [evaluate_logical_expression.eq_def] at h
    dsimp only at h
    cases hc : compare_values e l r F64.fgt with
    | error m => rw [hc] at h; simp at h
    | ok res =>
      cases res <;> rw [hc] at h <;>
        simp only [Option.some.injEq, Except.ok.injEq, Prod.mk.injEq] at h <;>
        exact ⟨vl, h.2.symm, VisExt.refl vl⟩
  | .LessThan l r, h => by
    rw [evaluate_logical_expression.eq_def] at h
    dsimp only at h
    cases hc : compare_values e l r F64.flt with
    | error m => rw [hc] at h; simp at h
    | ok res =>
      cases res <;> rw [hc] at h <;>
        simp only [Option.some.injEq, Except.ok.injEq, Prod.mk.injEq] at h <;>
        exact ⟨vl, h.2.symm, VisExt.refl vl⟩
  | .EqualTo l r, h => by
    rw [evaluate_logical_expression.eq_def] at h
    dsimp only at h
    cases hc : compare_values e l r F64.feq with
    | error m => rw [hc] at h; simp at h
    | ok res =>
      cases res <;> rw [hc] at h <;>
        simp only [Option.some.injEq, Except.ok.injEq, Prod.mk.injEq] at h <;>
        exact ⟨vl, h.2.symm, VisExt.refl vl⟩
  | .NotEqualTo l r, h => by
    rw [evaluate_logical_expression.eq_def] at h
    dsimp only at h
    cases hc : compare_values e l r F64.fne with
    | error m => rw [hc] at h; simp at h
    | ok res =>
      cases res <;> rw [hc] at h <;>
        simp only [Option.some.injEq, Except.ok.injEq, Prod.mk.injEq] at h <;>
        exact ⟨vl, h.2.symm, VisExt.refl vl⟩
  | .GreaterThanOrEqualTo l r, h => by
    rw [evaluate_logical_expression.eq_def] at h
    dsimp only at h
    cases hc : compare_values e l r F64.fge with
    | error m => rw [hc] at h; simp at h
    | ok res =>
      cases res <;> rw [hc] at h <;>
        simp only [Option.some.injEq, Except.ok.injEq, Prod.mk.injEq] at h <;>
        exact ⟨vl, h.2.symm, VisExt.refl vl⟩
  | .LessThanOrEqualTo l r, h => by
    rw [evaluate_logical_expression.eq_def] at h
    dsimp only at h
    cases hc : compare_values e l r F64.fle with
    | error m => rw [hc] at h; simp at h
    | ok res =>
      cases res <;> rw [hc] at h <;>
        simp only [Option.some.injEq, Except.ok.injEq, Prod.mk.injEq] at h <;>
        exact ⟨vl, h.2.symm, VisExt.refl vl⟩
termination_by (fuel, sizeOf x)

theorem visext_and (fuel : Nat) (e : Engine) (l : List LogicalOperator) (b : Bindings)
    (bc : Bool) (vl : List Fact) (ob : Option Bindings) (vout : Option (List Fact))
    (h : evaluate_and_list fuel e l b bc (some vl) = some (.ok (ob, vout))) :
    ∃ vl', vout = some vl' ∧ VisExt vl vl' :=
  match l, h with
  | [], h => by
    rw [evaluate_and_list.eq_def] at h
    dsimp only at h
    simp only [Option.some.injEq, Except.ok.injEq, Prod.mk.injEq] at h
    exact ⟨vl, h.2.symm, VisExt.refl vl⟩
  | x :: xs, h => by
    rw [evaluate_and_list.eq_def] at h
    dsimp only at h
    cases heval : evaluate_logical_expression fuel e x b bc (some vl) with
    | none => rw [heval] at h; simp at h
    | some r =>
      cases r with
      | error m => rw [heval] at h; simp at h
      | ok p =>
        obtain ⟨ob', vout'⟩ := p
        obtain ⟨v1, rfl, hv1⟩ := visext_eval fuel e x b bc vl ob' vout' heval
        cases ob' with
        | none =>
          rw [heval] at h
          simp only [Option.some.injEq, Except.ok.injEq, Prod.mk.injEq] at h
          exact ⟨v1, h.2.symm, hv1⟩
        | some b' =>
          rw [heval] at h
          obtain ⟨v2, rfl, hv2⟩ := visext_and fuel e xs b' bc v1 ob vout h
          exact ⟨v2, rfl, hv1.trans hv2⟩
termination_by (fuel, sizeOf l)

theorem visext_or (fuel : Nat) (e : Engine) (l : List LogicalOperator) (b : Bindings)
    (bc : Bool) (vl : List Fact) (ob : Option Bindings) (vout : Option (List Fact))
    (h : evaluate_or_list fuel e l b bc (some vl) = some (.ok (ob, vout))) :
    ∃ vl', vout = some vl' ∧ VisExt vl vl' :=
  match l, h with
  | [], h => by
    rw [evaluate_or_list.eq_def] at h
    dsimp only at h
    simp only [Option.some.injEq, Except.ok.injEq, Prod.mk.injEq] at h
    exact ⟨vl, h.2.symm, VisExt.refl vl⟩
  | x :: xs, h => by
    rw [evaluate_or_list.eq_def] at h
    dsimp only at h
    cases heval : evaluate_logical_expression fuel e x b bc (some vl) with
    | none => rw [heval] at h; simp at h
    | some r =>
      cases r with
      | error m => rw [heval] at h; simp at h
      | ok p =>
        obtain ⟨ob', vout'⟩ := p
        obtain ⟨v1, rfl, hv1⟩ := visext_eval fuel e x b bc vl ob' vout' heval
        cases ob' with
        | some b' =>
          rw [heval] at h
          simp only [Option.some.injEq, Except.ok.injEq, Prod.mk.injEq] at h
          exact ⟨v1, h.2.symm, hv1⟩
        | none =>
          rw [heval] at h
          obtain ⟨v2, rfl, hv2⟩ := visext_or fuel e xs b bc v1 ob vout h
          exact ⟨v2, rfl, hv1.trans hv2⟩
termination_by (fuel, sizeOf l)

theorem visext_search (fuel : Nat) (e : Engine) (goal : Fact) (vl : List Fact)
    (res : Bool) (vl' : List Fact)
    (h : search_for_rules fuel e goal vl = some (.ok (res, vl'))) : VisExt vl vl' :=
  match fuel, h with
  | 0, h => by
    rw [search_for_rules.eq_def] at h
    simp at h
  | fuel + 1, h => by
    rw [search_for_rules.eq_def] at h
    dsimp only at h
    by_cases hcyc : detect_cycle goal vl = true
    · rw [if_pos hcyc] at h
      simp only [Option.some.injEq, Except.ok.injEq, Prod.mk.injEq] at h
      exact h.2 ▸ VisExt.refl vl
    · rw [if_neg hcyc] at h
      by_cases hhit :
          (e.facts.any fun known_fact => FactValue.beq known_fact.value goal.value) = true
      · rw [if_pos hhit] at h
        simp only [Option.some.injEq, Except.ok.injEq, Prod.mk.injEq] at h
        exact h.2 ▸ VisExt.refl vl
      · rw [if_neg hhit] at h
        have hsar := visext_sar fuel e
          (e.rules.filter fun rule => Fact.beq rule.conclusion goal) (vl ++ [goal]) res vl' h
        cases res with
        | true => exact (VisExt.push vl goal).trans (hsar.1 rfl).1
        | false =>
          have hd := hsar.2 rfl
          rwa [visext_concat_dropLast] at hd
termination_by (fuel, 0)

theorem visext_sar (fuel : Nat) (e : Engine) (rules : List Rule) (vl : List Fact)
    (res : Bool) (vl' : List Fact)
    (h : search_applicable_rules fuel e rules vl = some (.ok (res, vl'))) :
    (res = true → VisExt vl vl' ∧ rules ≠ []) ∧ (res = false → VisExt vl.dropLast vl') :=
  match rules, h with
  | [], h => by
    rw [search_applicable_rules.eq_def] at h
    dsimp only at h
    simp only [Option.some.injEq, Except.ok.injEq, Prod.mk.injEq] at h
    obtain ⟨hres, hvl⟩ := h
    subst hres
    exact ⟨fun ht => absurd ht (by simp), fun _ => hvl ▸ VisExt.refl vl.dropLast⟩
  | rule :: rest, h => by
    rw [search_applicable_rules.eq_def] at h
    dsimp only at h
    cases heval : evaluate_logical_expression fuel e rule.premise e.variable_bindings true
        (some vl) with
    | none => rw [heval] at h; simp at h
    | some r =>
      cases r with
      | error m => rw [heval] at h; simp at h
      | ok p =>
        obtain ⟨ob', vout'⟩ := p
        obtain ⟨v1, rfl, hv1⟩ :=
          visext_eval fuel e rule.premise e.variable_bindings true vl ob' vout' heval
        cases ob' with
        | some b' =>
          rw [heval] at h
          simp only [Option.some.injEq, Except.ok.injEq, Prod.mk.injEq] at h
          obtain ⟨hres, hvl⟩ := h
          subst hres
          exact ⟨fun _ => ⟨hvl ▸ hv1, by simp⟩, fun hf => absurd hf (by simp)⟩
        | none =>
          rw [heval] at h
          have hsar := visext_sar fuel e rest v1 res vl' h
          refine ⟨fun ht => ⟨hv1.trans (hsar.1 ht).1, by simp⟩, fun hf => ?_⟩
          exact (hv1.dropLast).trans (hsar.2 hf)
termination_by (fuel, 1 + sizeOf rules)
decreasing_by
  · apply Prod.Lex.right
    cases rule with
    | mk premise conclusion => simp +arith [List.cons.sizeOf_spec, Rule.mk.sizeOf_spec]
  · apply Prod.Lex.right
    simp +arith [List.cons.sizeOf_spec]

end

/-! ### Fuel adequacy: the recursion depth of backward chaining is bounded
by the number of distinct (non-`nan`) rule atoms, because each nesting level
pushes a new candidate goal that stays on `visited` for the whole level. -/

theorem filter_conclusion_nan {e : Engine} {g : Fact} (hg : isNanFact g = true) :
    (e.rules.filter fun rule => Fact.beq rule.conclusion g) = [] := by
  rw [List.filter_eq_nil_iff]
  intro r _
  simp [fact_beq_nan hg]

mutual

theorem fuelok_eval (fuel : Nat) (e : Engine) (x : LogicalOperator) (b : Bindings)
    (vl : List Fact) (hcl : ClosedE e x) (hf : 1 + Sm e vl ≤ fuel) :
    (evaluate_logical_expression fuel e x b true (some vl)).isSome = true :=
  match x, hcl with
  | .And l, hcl => by
    rw [evaluate_logical_expression.eq_def]
    dsimp only
    exact fuelok_and fuel e l b vl (fun a ha => hcl a (by simpa [atoms] using ha)) hf
  | .Or l, hcl => by
    rw [evaluate_logical_expression.eq_def]
    dsimp only
    exact fuelok_or fuel e l b vl (fun a ha => hcl a (by simpa [atoms] using ha)) hf
  | .Not inner, hcl => by
    rw [evaluate_logical_expression.eq_def]
    dsimp only
    have hin := fuelok_eval fuel e inner b vl (fun a ha => hcl a (by simpa [atoms] using ha)) hf
    cases heval : evaluate_logical_expression fuel e inner b true (some vl) with
    | none => rw [heval] at hin; simp at hin
    | some r =>
      cases r with
      | error m => simp
      | ok p =>
        obtain ⟨ob', vout'⟩ := p
        cases ob' <;> simp
  | .AtomicFact fact, hcl => by
    rw [evaluate_logical_expression.eq_def]
    dsimp only
    simp only [if_true]
    by_cases hany : (e.facts.any fun known_fact => match_fact fact known_fact) = true
    · rw [if_pos hany]
      simp
    · rw [if_neg hany]
      have hfact : fact ∈ rule_atoms e := hcl fact (by simp [atoms])
      have hone : 1 ≤ fuel := le_trans (by omega) hf
      have hsearch : (search_for_rules fuel e fact vl).isSome = true := by
        by_cases hmem : memF fact vl = true
        · exact fuelok_search fuel e fact vl (Or.inl hmem) hone
        · by_cases hnan : isNanFact fact = true
          · exact fuelok_search fuel e fact vl (Or.inr (Or.inl hnan)) hone
          · have hcand : fact ∈ cand_goals e :=
              mem_cand_goals hfact (Bool.not_eq_true _ ▸ Bool.of_not_eq_true hnan)
            exact fuelok_search fuel e fact vl (Or.inr (Or.inr (Or.inl ⟨hcand, hf⟩))) hone
      cases hs : search_for_rules fuel e fact vl with
      | none => rw [hs] at hsearch; simp at hsearch
      | some r =>
        cases r with
        | error m => simp
        | ok p =>
          obtain ⟨res, v'⟩ := p
          cases res <;> simp
  | .GreaterThan l r, _ => by
    rw [evaluate_logical_expression.eq_def]
    dsimp only
    cases compare_values e l r F64.fgt with
    | error m => simp
    | ok res => cases res <;> simp
  | .LessThan l r, _ => by
    rw [evaluate_logical_expression.eq_def]
    dsimp only
    cases compare_values e l r F64.flt with
    | error m => simp
    | ok res => cases res <;> simp
  | .EqualTo l r, _ => by
    rw [evaluate_logical_expression.eq_def]
    dsimp only
    cases compare_values e l r F64.feq with
    | error m => simp
    | ok res => cases res <;> simp
  | .NotEqualTo l r, _ => by
    rw [evaluate_logical_expression.eq_def]
    dsimp only
    cases compare_values e l r F64.fne with
    | error m => simp
    | ok res => cases res <;> simp
  | .GreaterThanOrEqualTo l r, _ => by
    rw [evaluate_logical_expression.eq_def]
    dsimp only
    cases compare_values e l r F64.fge with
    | error m => simp
    | ok res => cases res <;> simp
  | .LessThanOrEqualTo l r, _ => by
    rw [evaluate_logical_expression.eq_def]
    dsimp only
    cases compare_values e l r F64.fle with
    | error m => simp
    | ok res => cases res <;> simp
termination_by (fuel, sizeOf x)

theorem fuelok_and (fuel : Nat) (e : Engine) (l : List LogicalOperator) (b : Bindings)
    (vl : List Fact) (hcl : ∀ a ∈ atoms_list l, a ∈ rule_atoms e)
    (hf : 1 + Sm e vl ≤ fuel) :
    (evaluate_and_list fuel e l b true (some vl)).isSome = true :=
  match l, hcl with
  | [], _ => by
    rw [evaluate_and_list.eq_def]
    simp
  | x :: xs, hcl => by
    rw [evaluate_and_list.eq_def]
    dsimp only
    have hx := fuelok_eval fuel e x b vl
      (fun a ha => hcl a (by rw [atoms_list]; exact List.mem_append_left _ ha)) hf
    cases heval : evaluate_logical_expression fuel e x b true (some vl) with
    | none => rw [heval] at hx; simp at hx
    | some r =>
      cases r with
      | error m => simp
      | ok p =>
        obtain ⟨ob', vout'⟩ := p
        cases ob' with
        | none => simp
        | some b' =>
          obtain ⟨v1, rfl, hv1⟩ := visext_eval fuel e x b true vl (some b') vout' heval
          have hf1 : 1 + Sm e v1 ≤ fuel :=
            le_trans (by have := Sm_le_of_subset (e := e) hv1.subset; omega) hf
          exact fuelok_and fuel e xs b' v1
            (fun a ha => hcl a (by rw [atoms_list]; exact List.mem_append_right _ ha)) hf1
termination_by (fuel, sizeOf l)

theorem fuelok_or (fuel : Nat) (e : Engine) (l : List LogicalOperator) (b : Bindings)
    (vl : List Fact) (hcl : ∀ a ∈ atoms_list l, a ∈ rule_atoms e)
    (hf : 1 + Sm e vl ≤ fuel) :
    (evaluate_or_list fuel e l b true (some vl)).isSome = true :=
  match l, hcl with
  | [], _ => by
    rw [evaluate_or_list.eq_def]
    simp
  | x :: xs, hcl => by
    rw [evaluate_or_list.eq_def]
    dsimp only
    have hx := fuelok_eval fuel e x b vl
      (fun a ha => hcl a (by rw [atoms_list]; exact List.mem_append_left _ ha)) hf
    cases heval : evaluate_logical_expression fuel e x b true (some vl) with
    | none => rw [heval] at hx; simp at hx
    | some r =>
      cases r with
      | error m => simp
      | ok p =>
        obtain ⟨ob', vout'⟩ := p
        cases ob' with
        | some b' => simp
        | none =>
          obtain ⟨v1, rfl, hv1⟩ := visext_eval fuel e x b true vl none vout' heval
          have hf1 : 1 + Sm e v1 ≤ fuel :=
            le_trans (by have := Sm_le_of_subset (e := e) hv1.subset; omega) hf
          exact fuelok_or fuel e xs b v1
            (fun a ha => hcl a (by rw [atoms_list]; exact List.mem_append_right _ ha)) hf1
termination_by (fuel, sizeOf l)

theorem fuelok_search (fuel : Nat) (e : Engine) (goal : Fact) (vl : List Fact)
    (hc : memF goal vl = true ∨ isNanFact goal = true ∨
      (goal ∈ cand_goals e ∧ 1 + Sm e vl ≤ fuel) ∨ 2 + Sm e vl ≤ fuel)
    (hone : 1 ≤ fuel) :
    (search_for_rules fuel e goal vl).isSome = true :=
  match fuel, hc, hone with
  | 0, _, hone => by omega
  | fuel + 1, hc, _ => by
    rw [search_for_rules.eq_def]
    dsimp only
    by_cases hcyc : detect_cycle goal vl = true
    · rw [if_pos hcyc]
      simp
    · rw [if_neg hcyc]
      by_cases hhit :
          (e.facts.any fun known_fact => FactValue.beq known_fact.value goal.value) = true
      · rw [if_pos hhit]
        simp
      · rw [if_neg hhit]
        have hmem : memF goal vl = false := by
          have : detect_cycle goal vl = memF goal vl := rfl
          rw [← this]
          exact Bool.of_not_eq_true hcyc
        rcases hc with hc | hc | hc | hc
        · rw [hc] at hmem
          exact absurd hmem (by simp)
        · rw [filter_conclusion_nan hc]
          rw [search_applicable_rules.eq_def]
          simp
        · obtain ⟨hcand, hfl⟩ := hc
          have hnan : isNanFact goal = false := by
            unfold cand_goals at hcand
            rw [List.mem_toFinset, List.mem_filter] at hcand
            simpa using hcand.2
          have hnot : goal ∉ vl := memF_false_imp_not_mem hnan hmem
          have hlt := Sm_push_lt hcand hnot
          exact fuelok_sar fuel e _ (vl ++ [goal])
            (fun r hr => closedE_of_rule (List.mem_of_mem_filter hr)) (by omega)
        · have hle : Sm e (vl ++ [goal]) ≤ Sm e vl :=
            Sm_le_of_subset (List.subset_append_left vl [goal])
          exact fuelok_sar fuel e _ (vl ++ [goal])
            (fun r hr => closedE_of_rule (List.mem_of_mem_filter hr)) (by omega)
termination_by (fuel, 0)

theorem fuelok_sar (fuel : Nat) (e : Engine) (rules : List Rule) (vl : List Fact)
    (hcl : ∀ r ∈ rules, ClosedE e r.premise) (hf : 1 + Sm e vl ≤ fuel) :
    (search_applicable_rules fuel e rules vl).isSome = true :=
  match rules, hcl with
  | [], _ => by
    rw [search_applicable_rules.eq_def]
    simp
  | rule :: rest, hcl => by
    rw [search_applicable_rules.eq_def]
    dsimp only
    have hx := fuelok_eval fuel e rule.premise e.variable_bindings vl
      (hcl rule (List.mem_cons_self rule rest)) hf
    cases heval : evaluate_logical_expression fuel e rule.premise e.variable_bindings true
        (some vl) with
    | none => rw [heval] at hx; simp at hx
    | some r =>
      cases r with
      | error m => simp
      | ok p =>
        obtain ⟨ob', vout'⟩ := p
        obtain ⟨v1, rfl, hv1⟩ :=
          visext_eval fuel e rule.premise e.variable_bindings true vl ob' vout' heval
        cases ob' with
        | some b' => simp
        | none =>
          have hf1 : 1 + Sm e v1 ≤ fuel :=
            le_trans (by have := Sm_le_of_subset (e := e) hv1.subset; omega) hf
          exact fuelok_sar fuel e rest v1 (fun r hr => hcl r (List.mem_cons_of_mem _ hr)) hf1
termination_by (fuel, 1 + sizeOf rules)
decreasing_by
  · apply Prod.Lex.right
    cases rule with
    | mk premise conclusion => simp +arith [List.cons.sizeOf_spec, Rule.mk.sizeOf_spec]
  · apply Prod.Lex.right
    simp +arith [List.cons.sizeOf_spec]

end

/-! ### Forward-mode properties of the evaluator -/

theorem truthOf_eq_none {r : Option (Except String EvalRes)} :
    truthOf r = none ↔ r = none := by
  cases r with
  | none => simp [truthOf]
  | some x =>
    cases x with
    | error m => simp [truthOf]
    | ok p => simp [truthOf]

theorem truthOf_eq_error {r : Option (Except String EvalRes)} {m : String} :
    truthOf r = some (.error m) ↔ r = some (.error m) := by
  cases r with
  | none => simp [truthOf]
  | some x =>
    cases x with
    | error m2 => simp [truthOf]
    | ok p => simp [truthOf]

theorem truthOf_eq_ok {r : Option (Except String EvalRes)} {tb : Bool} :
    truthOf r = some (.ok tb) ↔ ∃ ob v, r = some (.ok (ob, v)) ∧ ob.isSome = tb := by
  cases r with
  | none => simp [truthOf]
  | some x =>
    cases x with
    | error m2 => simp [truthOf]
    | ok p =>
      obtain ⟨ob, v⟩ := p
      simp [truthOf, eq_comm]

theorem resolve_congr {e1 e2 : Engine} (hfa : e1.facts = e2.facts)
    (hsy : e1.symbols = e2.symbols) (cv : ComparableValue) :
    resolve_comparable_value e1 cv = resolve_comparable_value e2 cv := by
  cases cv with
  | Direct v => rfl
  | Symbol s =>
    simp only [resolve_comparable_value, get_fact_from_symbol, get_fact_value, hfa]
  | SymbolName n =>
    simp only [resolve_comparable_value, get_fact_from_symbol, get_fact_value, hfa, hsy]

theorem compare_congr {e1 e2 : Engine} (hfa : e1.facts = e2.facts)
    (hsy : e1.symbols = e2.symbols) (l r : ComparableValue) (f : F64 → F64 → Bool) :
    compare_values e1 l r f = compare_values e2 l r f := by
  unfold compare_values
  rw [resolve_congr hfa hsy, resolve_congr hfa hsy]

mutual

theorem fwd_isSome_eval (fuel : Nat) (e : Engine) (x : LogicalOperator) (b : Bindings)
    (vis : Option (List Fact)) :
    (evaluate_logical_expression fuel e x b false vis).isSome = true :=
  match x with
  | .And l => by
    rw [evaluate_logical_expression.eq_def]
    dsimp only
    exact fwd_isSome_and fuel e l b vis
  | .Or l => by
    rw [evaluate_logical_expression.eq_def]
    dsimp only
    exact fwd_isSome_or fuel e l b vis
  | .Not inner => by
    rw [evaluate_logical_expression.eq_def]
    dsimp only
    have hin := fwd_isSome_eval fuel e inner b vis
    cases heval : evaluate_logical_expression fuel e inner b false vis with
    | none => rw [heval] at hin; simp at hin
    | some r =>
      cases r with
      | error m => simp
      | ok p =>
        obtain ⟨ob, v⟩ := p
        cases ob <;> simp
  | .AtomicFact fact => by
    rw [evaluate_logical_expression.eq_def]
    dsimp only
    by_cases hany : (e.facts.any fun known_fact => match_fact fact known_fact) = true <;>
      simp [hany]
  | .GreaterThan l r => by
    rw [evaluate_logical_expression.eq_def]
    dsimp only
    cases compare_values e l r F64.fgt with
    | error m => simp
    | ok res => cases res <;> simp
  | .LessThan l r => by
    rw [evaluate_logical_expression.eq_def]
    dsimp only
    cases compare_values e l r F64.flt with
    | error m => simp
    | ok res => cases res <;> simp
  | .EqualTo l r => by
    rw [evaluate_logical_expression.eq_def]
    dsimp only
    cases compare_values e l r F64.feq with
    | error m => simp
    | ok res => cases res <;> simp
  | .NotEqualTo l r => by
    rw [evaluate_logical_expression.eq_def]
    dsimp only
    cases compare_values e l r F64.fne with
    | error m => simp
    | ok res => cases res <;> simp
  | .GreaterThanOrEqualTo l r => by
    rw [evaluate_logical_expression.eq_def]
    dsimp only
    cases compare_values e l r F64.fge with
    | error m => simp
    | ok res => cases res <;> simp
  | .LessThanOrEqualTo l r => by
    rw [evaluate_logical_expression.eq_def]
    dsimp only
    cases compare_values e l r F64.fle with
    | error m => simp
    | ok res => cases res <;> simp
termination_by (sizeOf x)

theorem fwd_isSome_and (fuel : Nat) (e : Engine) (l : List LogicalOperator) (b : Bindings)
    (vis : Option (List Fact)) :
    (evaluate_and_list fuel e l b false vis).isSome = true :=
  match l with
  | [] => by
    rw [evaluate_and_list.eq_def]
    simp
  | x :: xs => by
    rw [evaluate_and_list.eq_def]
    dsimp only
    have hx := fwd_isSome_eval fuel e x b vis
    cases heval : evaluate_logical_expression fuel e x b false vis with
    | none => rw [heval] at hx; simp at hx
    | some r =>
      cases r with
      | error m => simp
      | ok p =>
        obtain ⟨ob, v⟩ := p
        cases ob with
        | none => simp
        | some b2 => exact fwd_isSome_and fuel e xs b2 v
termination_by (sizeOf l)

theorem fwd_isSome_or (fuel : Nat) (e : Engine) (l : List LogicalOperator) (b : Bindings)
    (vis : Option (List Fact)) :
    (evaluate_or_list fuel e l b false vis).isSome = true :=
  match l with
  | [] => by
    rw [evaluate_or_list.eq_def]
    simp
  | x :: xs => by
    rw [evaluate_or_list.eq_def]
    dsimp only
    have hx := fwd_isSome_eval fuel e x b vis
    cases heval : evaluate_logical_expression fuel e x b false vis with
    | none => rw [heval] at hx; simp at hx
    | some r =>
      cases r with
      | error m => simp
      | ok p =>
        obtain ⟨ob, v⟩ := p
        cases ob with
        | some b2 => simp
        | none => exact fwd_isSome_or fuel e xs b v
termination_by (sizeOf l)

end

mutual

theorem bindid_eval (fuel : Nat) (e : Engine) (x : LogicalOperator) (b : Bindings)
    (bc : Bool) (vis : Option (List Fact)) (b2 : Bindings) (v2 : Option (List Fact))
    (h : evaluate_logical_expression fuel e x b bc vis = some (.ok (some b2, v2))) :
    b2 = b :=
  match x, h with
  | .And l, h => by
    rw [evaluate_logical_expression.eq_def] at h
    dsimp only at h
    exact bindid_and fuel e l b bc vis b2 v2 h
  | .Or l, h => by
    rw [evaluate_logical_expression.eq_def] at h
    dsimp only at h
    exact bindid_or fuel e l b bc vis b2 v2 h
  | .Not inner, h => by
    rw [evaluate_logical_expression.eq_def] at h
    dsimp only at h
    cases heval : evaluate_logical_expression fuel e inner b bc vis with
    | none => rw [heval] at h; simp at h
    | some r =>
      cases r with
      | error m => rw [heval] at h; simp at h
      | ok p =>
        obtain ⟨ob, v⟩ := p
        cases ob with
        | none =>
          rw [heval] at h
          simp only [Option.some.injEq, Except.ok.injEq, Prod.mk.injEq,
            Option.some.injEq] at h
          exact h.1.symm
        | some bx =>
          rw [heval] at h
          simp at h
  | .AtomicFact fact, h => by
    rw [evaluate_logical_expression.eq_def] at h
    dsimp only at h
    cases bc with
    | false =>
      simp only [Bool.false_eq_true, if_false] at h
      by_cases hany : (e.facts.any fun known_fact => match_fact fact known_fact) = true
      · rw [if_pos hany] at h
        simp only [Option.some.injEq, Except.ok.injEq, Prod.mk.injEq,
          Option.some.injEq] at h
        exact h.1.symm
      · rw [if_neg hany] at h
        simp at h
    | true =>
      simp only [if_true] at h
      by_cases hany : (e.facts.any fun known_fact => match_fact fact known_fact) = true
      · rw [if_pos hany] at h
        simp only [Option.some.injEq, Except.ok.injEq, Prod.mk.injEq,
          Option.some.injEq] at h
        exact h.1.symm
      · rw [if_neg hany] at h
        cases vis with
        | none => simp at h
        | some vlist =>
          dsimp only at h
          cases hs : search_for_rules fuel e fact vlist with
          | none => rw [hs] at h; simp at h
          | some r =>
            cases r with
            | error m => rw [hs] at h; simp at h
            | ok p =>
              obtain ⟨res, v3⟩ := p
              cases res with
              | true =>
                rw [hs] at h
                simp only [Option.some.injEq, Except.ok.injEq, Prod.mk.injEq,
                  Option.some.injEq] at h
                exact h.1.symm
              | false =>
                rw [hs] at h
                simp at h
  | .GreaterThan l r, h => by
    rw [evaluate_logical_expression.eq_def] at h
    dsimp only at h
    cases hc : compare_values e l r F64.fgt with
    | error m => rw [hc] at h; simp at h
    | ok res =>
      cases res with
      | false => rw [hc] at h; simp at h
      | true =>
        rw [hc] at h
        simp only [Option.some.injEq, Except.ok.injEq, Prod.mk.injEq] at h
        exact h.1.symm
  | .LessThan l r, h => by
    rw [evaluate_logical_expression.eq_def] at h
    dsimp only at h
    cases hc : compare_values e l r F64.flt with
    | error m => rw [hc] at h; simp at h
    | ok res =>
      cases res with
      | false => rw [hc] at h; simp at h
      | true =>
        rw [hc] at h
        simp only [Option.some.injEq, Except.ok.injEq, Prod.mk.injEq] at h
        exact h.1.symm
  | .EqualTo l r, h => by
    rw [evaluate_logical_expression.eq_def] at h
    dsimp only at h
    cases hc : compare_values e l r F64.feq with
    | error m => rw [hc] at h; simp at h
    | ok res =>
      cases res with
      | false => rw [hc] at h; simp at h
      | true =>
        rw [hc] at h
        simp only [Option.some.injEq, Except.ok.injEq, Prod.mk.injEq] at h
        exact h.1.symm
  | .NotEqualTo l r, h => by
    rw [evaluate_logical_expression.eq_def] at h
    dsimp only at h
    cases hc : compare_values e l r F64.fne with
    | error m => rw [hc] at h; simp at h
    | ok res =>
      cases res with
      | false => rw [hc] at h; simp at h
      | true =>
        rw [hc] at h
        simp only [Option.some.injEq, Except.ok.injEq, Prod.mk.injEq] at h
        exact h.1.symm
  | .GreaterThanOrEqualTo l r, h => by
    rw [evaluate_logical_expression.eq_def] at h
    dsimp only at h
    cases hc : compare_values e l r F64.fge with
    | error m => rw [hc] at h; simp at h
    | ok res =>
      cases res with
      | false => rw [hc] at h; simp at h
      | true =>
        rw [hc] at h
        simp only [Option.some.injEq, Except.ok.injEq, Prod.mk.injEq] at h
        exact h.1.symm
  | .LessThanOrEqualTo l r, h => by
    rw [evaluate_logical_expression.eq_def] at h
    dsimp only at h
    cases hc : compare_values e l r F64.fle with
    | error m => rw [hc] at h; simp at h
    | ok res =>
      cases res with
      | false => rw [hc] at h; simp at h
      | true =>
        rw [hc] at h
        simp only [Option.some.injEq, Except.ok.injEq, Prod.mk.injEq] at h
        exact h.1.symm
termination_by (fuel, sizeOf x)

theorem bindid_and (fuel : Nat) (e : Engine) (l : List LogicalOperator) (b : Bindings)
    (bc : Bool) (vis : Option (List Fact)) (b2 : Bindings) (v2 : Option (List Fact))
    (h : evaluate_and_list fuel e l b bc vis = some (.ok (some b2, v2))) :
    b2 = b :=
  match l, h with
  | [], h => by
    rw [evaluate_and_list.eq_def] at h
    dsimp only at h
    simp only [Option.some.injEq, Except.ok.injEq, Prod.mk.injEq, Option.some.injEq] at h
    exact h.1.symm
  | x :: xs, h => by
    rw [evaluate_and_list.eq_def] at h
    dsimp only at h
    cases heval : evaluate_logical_expression fuel e x b bc vis with
    | none => rw [heval] at h; simp at h
    | some r =>
      cases r with
      | error m => rw [heval] at h; simp at h
      | ok p =>
        obtain ⟨ob, v⟩ := p
        cases ob with
        | none => rw [heval] at h; simp at h
        | some bx =>
          rw [heval] at h
          have hbx : bx = b := bindid_eval fuel e x b bc vis bx v heval
          have hb2 : b2 = bx := bindid_and fuel e xs bx bc v b2 v2 h
          rw [hb2, hbx]
termination_by (fuel, sizeOf l)

theorem bindid_or (fuel : Nat) (e : Engine) (l : List LogicalOperator) (b : Bindings)
    (bc : Bool) (vis : Option (List Fact)) (b2 : Bindings) (v2 : Option (List Fact))
    (h : evaluate_or_list fuel e l b bc vis = some (.ok (some b2, v2))) :
    b2 = b :=
  match l, h with
  | [], h => by
    rw [evaluate_or_list.eq_def] at h
    dsimp only at h
    simp at h
  | x :: xs, h => by
    rw [evaluate_or_list.eq_def] at h
    dsimp only at h
    cases heval : evaluate_logical_expression fuel e x b bc vis with
    | none => rw [heval] at h; simp at h
    | some r =>
      cases r with
      | error m => rw [heval] at h; simp at h
      | ok p =>
        obtain ⟨ob, v⟩ := p
        cases ob with
        | some bx =>
          rw [heval] at h
          simp only [Option.some.injEq, Except.ok.injEq, Prod.mk.injEq,
            Option.some.injEq] at h
          rw [← h.1]
          exact bindid_eval fuel e x b bc vis bx v heval
        | none =>
          rw [heval] at h
          exact bindid_or fuel e xs b bc v b2 v2 h
termination_by (fuel, sizeOf l)

end

/-! ### Forward-mode truth depends only on the fact list and symbol table,
never on the bindings argument, the fuel, the engine bindings or the rules -/

mutual

theorem truth_congr_eval (f1 f2 : Nat) (e1 e2 : Engine) (hfa : e1.facts = e2.facts)
    (hsy : e1.symbols = e2.symbols) (x : LogicalOperator) (b1 b2 : Bindings)
    (v1 v2 : Option (List Fact)) :
    truthOf (evaluate_logical_expression f1 e1 x b1 false v1) =
      truthOf (evaluate_logical_expression f2 e2 x b2 false v2) :=
  match x with
  | .And l => by
    rw [evaluate_logical_expression.eq_def, evaluate_logical_expression.eq_def]
    dsimp only
    exact truth_congr_and f1 f2 e1 e2 hfa hsy l b1 b2 v1 v2
  | .Or l => by
    rw [evaluate_logical_expression.eq_def, evaluate_logical_expression.eq_def]
    dsimp only
    exact truth_congr_or f1 f2 e1 e2 hfa hsy l b1 b2 v1 v2
  | .Not inner => by
    rw [evaluate_logical_expression.eq_def, evaluate_logical_expression.eq_def]
    dsimp only
    have ht := truth_congr_eval f1 f2 e1 e2 hfa hsy inner b1 b2 v1 v2
    cases h1 : evaluate_logical_expression f1 e1 inner b1 false v1 with
    | none =>
      have h2 := truthOf_eq_none.mp (by rw [← ht, h1]; rfl)
      rw [h2]
    | some r =>
      cases r with
      | error m =>
        have h2 := truthOf_eq_error.mp (by rw [← ht, h1]; rfl)
        rw [h2]
      | ok p =>
        obtain ⟨ob, v⟩ := p
        have h2 := truthOf_eq_ok.mp (by rw [← ht, h1]; rfl)
        obtain ⟨ob2, vx2, h2e, h2s⟩ := h2
        rw [h2e]
        cases ob with
        | none =>
          cases ob2 with
          | none => rfl
          | some bz => simp at h2s
        | some by1 =>
          cases ob2 with
          | none => simp at h2s
          | some bz => rfl
  | .AtomicFact fact => by
    rw [evaluate_logical_expression.eq_def, evaluate_logical_expression.eq_def]
    dsimp only
    rw [hfa]
    by_cases hany : (e2.facts.any fun known_fact => match_fact fact known_fact) = true <;>
      simp [hany, truthOf]
  | .GreaterThan l r => by
    rw [evaluate_logical_expression.eq_def, evaluate_logical_expression.eq_def]
    dsimp only
    rw [compare_congr hfa hsy]
    cases compare_values e2 l r F64.fgt with
    | error m => rfl
    | ok res => cases res <;> rfl
  | .LessThan l r => by
    rw [evaluate_logical_expression.eq_def, evaluate_logical_expression.eq_def]
    dsimp only
    rw [compare_congr hfa hsy]
    cases compare_values e2 l r F64.flt with
    | error m => rfl
    | ok res => cases res <;> rfl
  | .EqualTo l r => by
    rw [evaluate_logical_expression.eq_def, evaluate_logical_expression.eq_def]
    dsimp only
    rw [compare_congr hfa hsy]
    cases compare_values e2 l r F64.feq with
    | error m => rfl
    | ok res => cases res <;> rfl
  | .NotEqualTo l r => by
    rw [evaluate_logical_expression.eq_def, evaluate_logical_expression.eq_def]
    dsimp only
    rw [compare_congr hfa hsy]
    cases compare_values e2 l r F64.fne with
    | error m => rfl
    | ok res => cases res <;> rfl
  | .GreaterThanOrEqualTo l r => by
    rw [evaluate_logical_expression.eq_def, evaluate_logical_expression.eq_def]
    dsimp only
    rw [compare_congr hfa hsy]
    cases compare_values e2 l r F64.fge with
    | error m => rfl
    | ok res => cases res <;> rfl
  | .LessThanOrEqualTo l r => by
    rw [evaluate_logical_expression.eq_def, evaluate_logical_expression.eq_def]
    dsimp only
    rw [compare_congr hfa hsy]
    cases compare_values e2 l r F64.fle with
    | error m => rfl
    | ok res => cases res <;> rfl
termination_by (sizeOf x)

theorem truth_congr_and (f1 f2 : Nat) (e1 e2 : Engine) (hfa : e1.facts = e2.facts)
    (hsy : e1.symbols = e2.symbols) (l : List LogicalOperator) (b1 b2 : Bindings)
    (v1 v2 : Option (List Fact)) :
    truthOf (evaluate_and_list f1 e1 l b1 false v1) =
      truthOf (evaluate_and_list f2 e2 l b2 false v2) :=
  match l with
  | [] => by
    rw [evaluate_and_list.eq_def, evaluate_and_list.eq_def]
    rfl
  | x :: xs => by
    rw [evaluate_and_list.eq_def, evaluate_and_list.eq_def]
    dsimp only
    have ht := truth_congr_eval f1 f2 e1 e2 hfa hsy x b1 b2 v1 v2
    cases h1 : evaluate_logical_expression f1 e1 x b1 false v1 with
    | none =>
      have h2 := truthOf_eq_none.mp (by rw [← ht, h1]; rfl)
      rw [h2]
    | some r =>
      cases r with
      | error m =>
        have h2 := truthOf_eq_error.mp (by rw [← ht, h1]; rfl)
        rw [h2]
      | ok p =>
        obtain ⟨ob, v⟩ := p
        obtain ⟨ob2, vx2, h2e, h2s⟩ := truthOf_eq_ok.mp (by rw [← ht, h1]; rfl)
        rw [h2e]
        cases ob with
        | none =>
          cases ob2 with
          | none => rfl
          | some bz => simp at h2s
        | some bx =>
          cases ob2 with
          | none => simp at h2s
          | some bz => exact truth_congr_and f1 f2 e1 e2 hfa hsy xs bx bz v vx2
termination_by (sizeOf l)

theorem truth_congr_or (f1 f2 : Nat) (e1 e2 : Engine) (hfa : e1.facts = e2.facts)
    (hsy : e1.symbols = e2.symbols) (l : List LogicalOperator) (b1 b2 : Bindings)
    (v1 v2 : Option (List Fact)) :
    truthOf (evaluate_or_list f1 e1 l b1 false v1) =
      truthOf (evaluate_or_list f2 e2 l b2 false v2) :=
  match l with
  | [] => by
    rw [evaluate_or_list.eq_def, evaluate_or_list.eq_def]
    rfl
  | x :: xs => by
    rw [evaluate_or_list.eq_def, evaluate_or_list.eq_def]
    dsimp only
    have ht := truth_congr_eval f1 f2 e1 e2 hfa hsy x b1 b2 v1 v2
    cases h1 : evaluate_logical_expression f1 e1 x b1 false v1 with
    | none =>
      have h2 := truthOf_eq_none.mp (by rw [← ht, h1]; rfl)
      rw [h2]
    | some r =>
      cases r with
      | error m =>
        have h2 := truthOf_eq_error.mp (by rw [← ht, h1]; rfl)
        rw [h2]
      | ok p =>
        obtain ⟨ob, v⟩ := p
        obtain ⟨ob2, vx2, h2e, h2s⟩ := truthOf_eq_ok.mp (by rw [← ht, h1]; rfl)
        rw [h2e]
        cases ob with
        | some bx =>
          cases ob2 with
          | none => simp at h2s
          | some bz => rfl
        | none =>
          cases ob2 with
          | some bz => simp at h2s
          | none => exact truth_congr_or f1 f2 e1 e2 hfa hsy xs b1 b2 v vx2
termination_by (sizeOf l)

end

/-! ### The rule pass and append loop of the fixpoint chainer -/

theorem fact_beq_symm (a b : Fact) : Fact.beq a b = Fact.beq b a := by
  cases hab : Fact.beq a b with
  | true =>
    obtain rfl := fact_beq_imp_eq hab
    rw [hab]
  | false =>
    cases hba : Fact.beq b a with
    | false => rfl
    | true =>
      obtain rfl := fact_beq_imp_eq hba
      rw [hba] at hab
      exact hab.symm

theorem rule_fires_fw_iff (e : Engine) (r : Rule) (b : Bindings) :
    rule_fires_fw e r = true ↔
      truthOf (evaluate_logical_expression 0 e r.premise b false none) = some (.ok true) := by
  unfold rule_fires_fw
  have ht := truth_congr_eval 0 0 e e rfl rfl r.premise e.variable_bindings b none none
  rw [← ht]
  cases hv : evaluate_logical_expression 0 e r.premise e.variable_bindings false none with
  | none => simp [truthOf]
  | some x =>
    cases x with
    | error m => simp [truthOf]
    | ok p =>
      obtain ⟨ob, v⟩ := p
      cases ob <;> simp [truthOf]

theorem pass_isSome (e : Engine) (rs : List Rule) (b : Bindings) (acc : List Fact) :
    (fcwv_rule_pass e rs b acc).isSome = true := by
  induction rs generalizing b acc with
  | nil => simp [fcwv_rule_pass]
  | cons rule rest ih =>
    have hx := fwd_isSome_eval 0 e rule.premise b none
    cases heval : evaluate_logical_expression 0 e rule.premise b false none with
    | none => rw [heval] at hx; simp at hx
    | some r =>
      cases r with
      | error m => simp [fcwv_rule_pass, heval]
      | ok p =>
        obtain ⟨ob, v⟩ := p
        cases ob with
        | none => simp only [fcwv_rule_pass, heval]; exact ih b acc
        | some bx => simp only [fcwv_rule_pass, heval]; exact ih (extendB b bx) _

theorem pass_concl (e : Engine) (rs : List Rule) (b : Bindings) (acc : List Fact)
    (b2 : Bindings) (concl : List Fact)
    (h : fcwv_rule_pass e rs b acc = some (.ok (b2, concl))) :
    concl = acc ++ (rs.filter (fun r => rule_fires_fw e r)).map (fun r => r.conclusion) := by
  induction rs generalizing b acc with
  | nil =>
    simp only [fcwv_rule_pass, Option.some.injEq, Except.ok.injEq, Prod.mk.injEq] at h
    simp [h.2]
  | cons rule rest ih =>
    cases heval : evaluate_logical_expression 0 e rule.premise b false none with
    | none => simp [fcwv_rule_pass, heval] at h
    | some r =>
      cases r with
      | error m => simp [fcwv_rule_pass, heval] at h
      | ok p =>
        obtain ⟨ob, v⟩ := p
        cases ob with
        | none =>
          simp only [fcwv_rule_pass, heval] at h
          have hnf : rule_fires_fw e rule = false := by
            rw [← Bool.not_eq_true]
            rw [rule_fires_fw_iff e rule b]
            rw [heval]
            simp [truthOf]
          rw [List.filter_cons_of_neg (by rw [hnf]; simp)]
          exact ih b acc h
        | some bx =>
          simp only [fcwv_rule_pass, heval] at h
          have hf : rule_fires_fw e rule = true := by
            rw [rule_fires_fw_iff e rule b, heval]
            simp [truthOf]
          rw [List.filter_cons_of_pos (by rw [hf])]
          have := ih (extendB b bx) (acc ++ [rule.conclusion]) h
          simpa using this

theorem pass_congr (e1 e2 : Engine) (hfa : e1.facts = e2.facts)
    (hsy : e1.symbols = e2.symbols) (rs : List Rule) (b1 b2 : Bindings) (acc : List Fact) :
    passConcl (fcwv_rule_pass e1 rs b1 acc) = passConcl (fcwv_rule_pass e2 rs b2 acc) := by
  induction rs generalizing b1 b2 acc with
  | nil => simp [fcwv_rule_pass, passConcl]
  | cons rule rest ih =>
    have ht := truth_congr_eval 0 0 e1 e2 hfa hsy rule.premise b1 b2 none none
    cases h1 : evaluate_logical_expression 0 e1 rule.premise b1 false none with
    | none =>
      have h2 := truthOf_eq_none.mp (by rw [← ht, h1]; rfl)
      simp [fcwv_rule_pass, h1, h2, passConcl]
    | some r =>
      cases r with
      | error m =>
        have h2 := truthOf_eq_error.mp (by rw [← ht, h1]; rfl)
        simp [fcwv_rule_pass, h1, h2, passConcl]
      | ok p =>
        obtain ⟨ob, v⟩ := p
        obtain ⟨ob2, v2, h2e, h2s⟩ := truthOf_eq_ok.mp (by rw [← ht, h1]; rfl)
        cases ob with
        | none =>
          cases ob2 with
          | none =>
            simp only [fcwv_rule_pass, h1, h2e]
            exact ih b1 b2 acc
          | some bz => simp at h2s
        | some bx =>
          cases ob2 with
          | none => simp at h2s
          | some bz =>
            simp only [fcwv_rule_pass, h1, h2e]
            exact ih (extendB b1 bx) (extendB b2 bz) (acc ++ [rule.conclusion])

theorem passConcl_ok {r : Option (Except String (Bindings × List Fact))} {c : List Fact}
    (h : passConcl r = some (.ok c)) : ∃ b, r = some (.ok (b, c)) := by
  cases r with
  | none => simp [passConcl] at h
  | some x =>
    cases x with
    | error m => simp [passConcl] at h
    | ok p =>
      obtain ⟨b, c'⟩ := p
      simp only [passConcl, Option.some.injEq, Except.ok.injEq] at h
      exact ⟨b, by rw [h]⟩

theorem fcwv_append_false {facts cs facts' : List Fact}
    (h : fcwv_append facts cs = (facts', false)) :
    facts' = facts ∧ ∀ c ∈ cs, memF c facts = true := by
  induction cs generalizing facts with
  | nil =>
    simp only [fcwv_append, Prod.mk.injEq] at h
    exact ⟨h.1.symm, by simp⟩
  | cons c cs ih =>
    by_cases hm : memF c facts = true
    · simp only [fcwv_append, if_pos hm] at h
      obtain ⟨h1, h2⟩ := ih h
      refine ⟨h1, ?_⟩
      intro d hd
      rcases List.mem_cons.mp hd with rfl | hd
      · exact hm
      · exact h2 d hd
    · simp only [fcwv_append, if_neg hm, Prod.mk.injEq] at h
      exact absurd h.2 (by simp)

theorem fcwv_append_all_mem {facts cs : List Fact} (h : ∀ c ∈ cs, memF c facts = true) :
    fcwv_append facts cs = (facts, false) := by
  induction cs with
  | nil => rfl
  | cons c cs ih =>
    have hc : memF c facts = true := h c (List.mem_cons_self c cs)
    simp only [fcwv_append, if_pos hc]
    exact ih (fun d hd => h d (List.mem_cons_of_mem c hd))

theorem factsNoDupB_append {facts : List Fact} {c : Fact} (hn : factsNoDupB facts = true)
    (hm : memF c facts = false) : factsNoDupB (facts ++ [c]) = true := by
  induction facts with
  | nil => simp [factsNoDupB, memF]
  | cons f fs ih =>
    simp only [factsNoDupB, Bool.and_eq_true, Bool.not_eq_true'] at hn
    simp only [memF, List.any_cons, Bool.or_eq_false_iff] at hm
    have hrec := ih hn.2 (by simp [memF, hm.2])
    simp only [List.cons_append, factsNoDupB, Bool.and_eq_true, Bool.not_eq_true']
    refine ⟨?_, hrec⟩
    have happ : memF f (fs.append [c]) = (memF f fs || memF f [c]) := memF_append
    rw [happ]
    have hcf : Fact.beq c f = false := by
      rw [fact_beq_symm]
      exact hm.1
    rw [hn.1]
    simp [memF, hcf]

theorem fcwv_append_nodup {cs facts : List Fact} (hn : factsNoDupB facts = true) :
    factsNoDupB (fcwv_append facts cs).1 = true := by
  induction cs generalizing facts with
  | nil => simpa [fcwv_append]
  | cons c cs ih =>
    by_cases hm : memF c facts = true
    · simp only [fcwv_append, if_pos hm]
      exact ih hn
    · simp only [fcwv_append, if_neg hm]
      exact ih (factsNoDupB_append hn (Bool.of_not_eq_true hm))

/-! ### The state after a terminating fixpoint run satisfies its own pass -/

theorem fcwv_fix (n : Nat) (e e' : Engine)
    (h : forward_chaining_with_variables n e = some (.ok e')) :
    ∃ b2 concl,
      fcwv_rule_pass e' e'.rules e'.variable_bindings [] = some (.ok (b2, concl)) ∧
      ∀ c ∈ concl, memF c e'.facts = true := by
  induction n generalizing e with
  | zero => rw [forward_chaining_with_variables] at h; simp at h
  | succ n ih =>
    rw [forward_chaining_with_variables] at h
    cases hp : fcwv_rule_pass e e.rules e.variable_bindings [] with
    | none => rw [hp] at h; simp at h
    | some r =>
      cases r with
      | error m => rw [hp] at h; simp at h
      | ok p =>
        obtain ⟨b, concl⟩ := p
        rw [hp] at h
        dsimp only at h
        cases hflag : (fcwv_append e.facts concl).2 with
        | true =>
          rw [hflag] at h
          simp only [if_true] at h
          exact ih _ h
        | false =>
          rw [hflag] at h
          simp only [Bool.false_eq_true, if_false, Option.some.injEq, Except.ok.injEq] at h
          have hpair : fcwv_append e.facts concl = ((fcwv_append e.facts concl).1, false) := by
            rw [← hflag]
          obtain ⟨hfacts, hmem⟩ := fcwv_append_false hpair
          have hfa : e'.facts = e.facts := by rw [← h]; exact hfacts
          have hsy : e'.symbols = e.symbols := by rw [← h]
          have hru : e'.rules = e.rules := by rw [← h]
          have hcongr := pass_congr e' e hfa hsy e.rules e'.variable_bindings
            e.variable_bindings []
          rw [hp] at hcongr
          simp only [passConcl] at hcongr
          obtain ⟨b2, hpass⟩ := passConcl_ok hcongr
          refine ⟨b2, concl, ?_, ?_⟩
          · rw [hru]
            exact hpass
          · intro c hc
            rw [hfa]
            exact hmem c hc

/-! ### Single pass of the simple forward chainer -/

theorem fc_collect_eq (e : Engine) (rs : List Rule) (nf : List Fact)
    (h : forward_chaining_collect e rs = .ok nf) :
    nf = (rs.filter (fun r => premise_fires e r && !(memF r.conclusion e.facts))).map
      (fun r => r.conclusion) := by
  induction rs generalizing nf with
  | nil =>
    simp only [forward_chaining_collect, Except.ok.injEq] at h
    simp [← h]
  | cons rule rest ih =>
    cases hp : is_premise_true e rule.premise with
    | error m => simp [forward_chaining_collect, hp] at h
    | ok fires =>
      cases ht : forward_chaining_collect e rest with
      | error m => simp [forward_chaining_collect, hp, ht] at h
      | ok tail =>
        have hpf : premise_fires e rule = fires := by
          unfold premise_fires
          rw [hp]
          cases fires <;> rfl
        simp only [forward_chaining_collect, hp, ht] at h
        by_cases hc : (fires && !(memF rule.conclusion e.facts)) = true
        · rw [if_pos hc] at h
          simp only [Except.ok.injEq] at h
          rw [List.filter_cons_of_pos (by rw [hpf]; exact hc)]
          rw [← h, List.map_cons]
          rw [ih tail ht]
        · rw [if_neg hc] at h
          simp only [Except.ok.injEq] at h
          rw [List.filter_cons_of_neg (by rw [hpf]; exact hc)]
          rw [← h]
          exact ih tail ht

/-! ### Resolution by symbol: the scan skips non-numeric facts -/

theorem findSome?_filter {α β : Type _} (p : α → Prop) [DecidablePred p] (g : α → Option β)
    (l : List α) :
    (l.findSome? fun x => if p x then g x else none) =
      (l.filter (fun x => decide (p x))).findSome? g := by
  induction l with
  | nil => rfl
  | cons x xs ih =>
    by_cases hp : p x
    · rw [List.findSome?_cons, if_pos hp, List.filter_cons_of_pos (by simp [hp])]
      rw [List.findSome?_cons]
      cases g x <;> simp [ih]
    · rw [List.findSome?_cons, if_neg hp, List.filter_cons_of_neg (by simp [hp])]
      simpa using ih

/-! ### Extending a map with itself is the identity -/

theorem insertB_self {m : Bindings} {k : String} {v : FactValue}
    (hn : keysNodupB m = true) (hm : (k, v) ∈ m) : insertB m k v = m := by
  induction m with
  | nil => cases hm
  | cons kv rest ih =>
    obtain ⟨k2, v2⟩ := kv
    simp only [keysNodupB, Bool.and_eq_true, Bool.not_eq_true'] at hn
    rcases List.mem_cons.mp hm with heq | hm2
    · obtain ⟨rfl, rfl⟩ := Prod.mk.injEq .. |>.mp heq.symm
      simp [insertB]
    · have hk : ¬(k2 = k) := by
        intro hkk
        subst hkk
        have : rest.any (fun kv => kv.1 = k2) = true := by
          rw [List.any_eq_true]
          exact ⟨(k2, v), hm2, by simp⟩
        rw [this] at hn
        exact absurd hn.1 (by simp)
      simp only [insertB, if_neg hk]
      rw [ih hn.2 hm2]

theorem foldl_insert_self (m : Bindings) (l : List (String × FactValue))
    (h : ∀ kv ∈ l, insertB m kv.1 kv.2 = m) :
    l.foldl (fun acc kv => insertB acc kv.1 kv.2) m = m := by
  induction l with
  | nil => rfl
  | cons kv rest ih =>
    rw [List.foldl_cons, h kv (List.mem_cons_self kv rest)]
    exact ih (fun kv2 h2 => h kv2 (List.mem_cons_of_mem _ h2))

theorem extendB_self {m : Bindings} (hn : keysNodupB m = true) : extendB m m = m :=
  foldl_insert_self m m (fun kv hkv => insertB_self hn (by simpa using hkv))

/-! ### Fuel monotonicity: a result obtained with some fuel is the result —
more fuel never changes it, so the fuel passed by `specify_goal` is
canonical. -/

mutual

theorem mono_eval (n m : Nat) (e : Engine) (x : LogicalOperator) (b : Bindings)
    (bc : Bool) (vis : Option (List Fact)) (r : Except String EvalRes)
    (hnm : n ≤ m) (h : evaluate_logical_expression n e x b bc vis = some r) :
    evaluate_logical_expression m e x b bc vis = some r :=
  match x, h with
  | .And l, h => by
    rw [evaluate_logical_expression.eq_def] at h ⊢
    dsimp only at h ⊢
    exact mono_and n m e l b bc vis r hnm h
  | .Or l, h => by
    rw [evaluate_logical_expression.eq_def] at h ⊢
    dsimp only at h ⊢
    exact mono_or n m e l b bc vis r hnm h
  | .Not inner, h => by
    rw [evaluate_logical_expression.eq_def] at h ⊢
    dsimp only at h ⊢
    cases heval : evaluate_logical_expression n e inner b bc vis with
    | none => rw [heval] at h; simp at h
    | some r1 =>
      rw [heval] at h
      rw [mono_eval n m e inner b bc vis r1 hnm heval]
      exact h
  | .AtomicFact fact, h => by
    rw [evaluate_logical_expression.eq_def] at h ⊢
    dsimp only at h ⊢
    cases bc with
    | false => exact h
    | true =>
      simp only [if_true] at h ⊢
      by_cases hany : (e.facts.any fun known_fact => match_fact fact known_fact) = true
      · rw [if_pos hany] at h ⊢
        exact h
      · rw [if_neg hany] at h ⊢
        cases vis with
        | none => exact h
        | some vlist =>
          dsimp only at h ⊢
          cases hs : search_for_rules n e fact vlist with
          | none => rw [hs] at h; simp at h
          | some r1 =>
            rw [hs] at h
            rw [mono_search n m e fact vlist r1 hnm hs]
            exact h
  | .GreaterThan l r2, h => by
    rw [evaluate_logical_expression.eq_def] at h ⊢
    exact h
  | .LessThan l r2, h => by
    rw [evaluate_logical_expression.eq_def] at h ⊢
    exact h
  | .EqualTo l r2, h => by
    rw [evaluate_logical_expression.eq_def] at h ⊢
    exact h
  | .NotEqualTo l r2, h => by
    rw [evaluate_logical_expression.eq_def] at h ⊢
    exact h
  | .GreaterThanOrEqualTo l r2, h => by
    rw [evaluate_logical_expression.eq_def] at h ⊢
    exact h
  | .LessThanOrEqualTo l r2, h => by
    rw [evaluate_logical_expression.eq_def] at h ⊢
    exact h
termination_by (n, sizeOf x)

theorem mono_and (n m : Nat) (e : Engine) (l : List LogicalOperator) (b : Bindings)
    (bc : Bool) (vis : Option (List Fact)) (r : Except String EvalRes)
    (hnm : n ≤ m) (h : evaluate_and_list n e l b bc vis = some r) :
    evaluate_and_list m e l b bc vis = some r :=
  match l, h with
  | [], h => by
    rw [evaluate_and_list.eq_def] at h ⊢
    exact h
  | x :: xs, h => by
    rw [evaluate_and_list.eq_def] at h ⊢
    dsimp only at h ⊢
    cases heval : evaluate_logical_expression n e x b bc vis with
    | none => rw [heval] at h; simp at h
    | some r1 =>
      rw [heval] at h
      rw [mono_eval n m e x b bc vis r1 hnm heval]
      cases r1 with
      | error m2 => exact h
      | ok p =>
        obtain ⟨ob, v⟩ := p
        cases ob with
        | none => exact h
        | some b2 => exact mono_and n m e xs b2 bc v r hnm h
termination_by (n, sizeOf l)

theorem mono_or (n m : Nat) (e : Engine) (l : List LogicalOperator) (b : Bindings)
    (bc : Bool) (vis : Option (List Fact)) (r : Except String EvalRes)
    (hnm : n ≤ m) (h : evaluate_or_list n e l b bc vis = some r) :
    evaluate_or_list m e l b bc vis = some r :=
  match l, h with
  | [], h => by
    rw [evaluate_or_list.eq_def] at h ⊢
    exact h
  | x :: xs, h => by
    rw [evaluate_or_list.eq_def] at h ⊢
    dsimp only at h ⊢
    cases heval : evaluate_logical_expression n e x b bc vis with
    | none => rw [heval] at h; simp at h
    | some r1 =>
      rw [heval] at h
      rw [mono_eval n m e x b bc vis r1 hnm heval]
      cases r1 with
      | error m2 => exact h
      | ok p =>
        obtain ⟨ob, v⟩ := p
        cases ob with
        | some b2 => exact h
        | none => exact mono_or n m e xs b bc v r hnm h
termination_by (n, sizeOf l)

theorem mono_search (n m : Nat) (e : Engine) (goal : Fact) (vl : List Fact)
    (r : Except String (Bool × List Fact))
    (hnm : n ≤ m) (h : search_for_rules n e goal vl = some r) :
    search_for_rules m e goal vl = some r :=
  match n, m, hnm, h with
  | 0, _, _, h => by
    rw [search_for_rules.eq_def] at h
    simp at h
  | n + 1, m + 1, hnm, h => by
    rw [search_for_rules.eq_def] at h ⊢
    dsimp only at h ⊢
    by_cases hcyc : detect_cycle goal vl = true
    · rw [if_pos hcyc] at h ⊢
      exact h
    · rw [if_neg hcyc] at h ⊢
      by_cases hhit :
          (e.facts.any fun known_fact => FactValue.beq known_fact.value goal.value) = true
      · rw [if_pos hhit] at h ⊢
        exact h
      · rw [if_neg hhit] at h ⊢
        exact mono_sar n m e _ (vl ++ [goal]) r (by omega) h
termination_by (n, 0)

theorem mono_sar (n m : Nat) (e : Engine) (rules : List Rule) (vl : List Fact)
    (r : Except String (Bool × List Fact))
    (hnm : n ≤ m) (h : search_applicable_rules n e rules vl = some r) :
    search_applicable_rules m e rules vl = some r :=
  match rules, h with
  | [], h => by
    rw [search_applicable_rules.eq_def] at h ⊢
    exact h
  | rule :: rest, h => by
    rw [search_applicable_rules.eq_def] at h ⊢
    dsimp only at h ⊢
    cases heval : evaluate_logical_expression n e rule.premise e.variable_bindings true
        (some vl) with
    | none => rw [heval] at h; simp at h
    | some r1 =>
      rw [heval] at h
      rw [mono_eval n m e rule.premise e.variable_bindings true (some vl) r1 hnm heval]
      cases r1 with
      | error m2 => exact h
      | ok p =>
        obtain ⟨ob, v⟩ := p
        cases ob with
        | some b2 =>
          cases v with
          | none => simp at h
          | some v2 => exact h
        | none =>
          cases v with
          | none => simp at h
          | some v2 => exact mono_sar n m e rest v2 r hnm h
termination_by (n, 1 + sizeOf rules)
decreasing_by
  · apply Prod.Lex.right
    cases rule with
    | mk premise conclusion => simp +arith [List.cons.sizeOf_spec, Rule.mk.sizeOf_spec]
  · apply Prod.Lex.right
    simp +arith [List.cons.sizeOf_spec]

end

/-- The fuel passed by `specify_goal` is canonical: any fuel at least
`fuel_bound e` produces the same search result. -/
theorem search_fuel_canonical (e : Engine) (goal : Fact) (m : Nat)
    (hm : fuel_bound e ≤ m) :
    search_for_rules m e goal [] = search_for_rules (fuel_bound e) e goal [] := by
  have hb : 2 + Sm e [] ≤ fuel_bound e := by
    have := Sm_nil_le e
    unfold fuel_bound
    omega
  have h := fuelok_search (fuel_bound e) e goal [] (Or.inr (Or.inr (Or.inr hb)))
    (by unfold fuel_bound; omega)
  cases hs : search_for_rules (fuel_bound e) e goal [] with
  | none => rw [hs] at h; simp at h
  | some r => exact mono_search (fuel_bound e) m e goal [] r hm hs

/-! ### The claims -/

/-- C1: In backward chaining, the direct-hit check of `search_for_rules`
succeeds on value alone: for every goal fact `g` and every engine state, if
any fact in the fact sequence has a value equal (Rust `PartialEq`) to
`g.value` — regardless of its symbol — then `search_for_rules g visited`
returns true, provided `g` is not already in `visited` (and at least one
unit of fuel is available; the check happens before any recursion). -/
theorem c1 (fuel : Nat) (e : Engine) (g : Fact) (visited : List Fact)
    (hvis : memF g visited = false)
    (hhit : (e.facts.any fun known_fact => FactValue.beq known_fact.value g.value) = true)
    (hfuel : 1 ≤ fuel) :
    search_for_rules fuel e g visited = some (.ok (true, visited)) := by
  cases fuel with
  | zero => omega
  | succ fuel =>
    rw [search_for_rules.eq_def]
    dsimp only
    have hcyc : detect_cycle g visited = false := hvis
    rw [hcyc]
    simp only [Bool.false_eq_true, if_false]
    rw [if_pos hhit]

/-- Witness for C1: the engine knows only `A = 5`; the goal `B = 5` has a
different symbol but the same value, and the search succeeds at once. -/
theorem c1_witness :
    memF c1_goal [] = false ∧
    (c1_engine.facts.any fun known_fact =>
      FactValue.beq known_fact.value c1_goal.value) = true ∧
    search_for_rules 1 c1_engine c1_goal [] = some (.ok (true, [])) :=
  ⟨by decide, by decide, c1 1 c1_engine c1_goal [] (by decide) (by decide) (by omega)⟩

/-- C2: `specify_goal` (the backward-chaining query) terminates on every
goal fact and every engine state, including engines whose rules have cyclic
conclusion/premise dependencies: the fuel `fuel_bound e`, computed from the
engine alone, is always sufficient, because the shared `visited` list grows
along each recursion path and the cycle guard blocks re-entry, so the
nesting depth is bounded by the number of distinct rule atoms.  (`isSome`
covers both normal returns and panics; a panic is a finite abort.) -/
theorem c2 (e : Engine) (goal : Fact) : (specify_goal e goal).isSome = true := by
  unfold specify_goal
  have hb : 2 + Sm e [] ≤ fuel_bound e := by
    have := Sm_nil_le e
    unfold fuel_bound
    omega
  have h := fuelok_search (fuel_bound e) e goal [] (Or.inr (Or.inr (Or.inr hb)))
    (by unfold fuel_bound; omega)
  cases hs : search_for_rules (fuel_bound e) e goal [] with
  | none => rw [hs] at h; simp at h
  | some r => simp [hs]

/-- C10: `search_for_rules` removes the goal from the shared `visited` list
only on the false-returning path; when it returns true by satisfying an
applicable rule premise (not by a direct value hit), the goal remains in
`visited` after the call — the pushed entry `visited ++ [goal]` is a prefix
of the final list — so a later search for the same goal over the resulting
list is rejected immediately by the cycle guard, returning false. -/
theorem c10 (fuel : Nat) (e : Engine) (g : Fact) (visited vl2 : List Fact)
    (h : search_for_rules fuel e g visited = some (.ok (true, vl2)))
    (hhit : (e.facts.any fun known_fact => FactValue.beq known_fact.value g.value) = false) :
    VisExt (visited ++ [g]) vl2 ∧ memF g vl2 = true ∧
      ∀ m, 1 ≤ m → search_for_rules m e g vl2 = some (.ok (false, vl2)) := by
  cases fuel with
  | zero => rw [search_for_rules.eq_def] at h; simp at h
  | succ fuel =>
    rw [search_for_rules.eq_def] at h
    dsimp only at h
    by_cases hcyc : detect_cycle g visited = true
    · rw [if_pos hcyc] at h
      simp at h
    · rw [if_neg hcyc] at h
      rw [if_neg (by rw [hhit]; simp)] at h
      have hsar := visext_sar fuel e
        (e.rules.filter fun rule => Fact.beq rule.conclusion g) (visited ++ [g]) true vl2 h
      obtain ⟨hve, hne⟩ := hsar.1 rfl
      obtain ⟨r0, hr0⟩ := List.exists_mem_of_ne_nil _ hne
      have hbeq : Fact.beq r0.conclusion g = true := by
        have hmf := List.mem_filter.mp hr0
        simpa using hmf.2
      have hgnan : isNanFact g = false := fact_beq_right_notnan hbeq
      have hmem : memF g vl2 = true := by
        apply mem_imp_memF hgnan
        apply hve.subset
        simp
      refine ⟨hve, hmem, ?_⟩
      intro m hm
      cases m with
      | zero => omega
      | succ k =>
        rw [search_for_rules.eq_def]
        dsimp only
        have hd : detect_cycle g vl2 = true := hmem
        rw [if_pos hd]

/-- Witness for C10: the one-rule engine proves `Picnic = true` through its
rule (no direct value hit exists); the goal remains on `visited`, and a
sibling search for the same goal is immediately rejected. -/
theorem c10_witness :
    search_for_rules 2 fw_engine factP [] = some (.ok (true, [factP])) ∧
    (fw_engine.facts.any fun known_fact =>
      FactValue.beq known_fact.value factP.value) = false ∧
    VisExt ([] ++ [factP]) [factP] ∧ memF factP [factP] = true ∧
    search_for_rules 1 fw_engine factP [factP] = some (.ok (false, [factP])) := by
  have h1 : search_for_rules 2 fw_engine factP [] = some (.ok (true, [factP])) := by
    simp [search_for_rules, search_applicable_rules, evaluate_logical_expression,
      detect_cycle, memF, fw_engine, define_rule, assert_fact, newEngine, factW, factP,
      symW, symP, Fact.beq, FactValue.beq, match_fact, F64.feq]
  have h2 : (fw_engine.facts.any fun known_fact =>
      FactValue.beq known_fact.value factP.value) = false := by decide
  have hc := c10 2 fw_engine factP [] [factP] h1 h2
  exact ⟨h1, h2, hc.1, hc.2.1, hc.2.2 1 (by omega)⟩

/-- C4 counterexample: the claim says resolution of `Symbol(s)` yields the
value of the FIRST fact whose symbol is `s` and fails fatally when that
first fact is non-numeric.  In `c4_engine` the first fact for `A` is
`Text "x"`, yet resolution succeeds and returns the value of the SECOND
fact, `Integer 5`: `get_fact_value` is a `find_map` that skips
symbol-matching facts whose value is not numeric. -/
theorem c4_counterexample :
    get_fact_from_symbol c4_engine symA = some ⟨symA, .Text "x"⟩ ∧
    resolve_comparable_value c4_engine (.Symbol symA) = .ok (.finite ((5 : Int) : ℚ)) := by
  constructor
  · decide
  · rfl

/-- C4 amended: resolving `ComparableValue::Symbol(s)` yields, as a double,
the value of the first fact with symbol `s` whose value is `Integer` or
`Float` (skipping earlier non-numeric facts with that symbol); it fails
fatally with "Symbol not found in knowledge base" when no fact at all has
symbol `s`, and fatally with the unsupported-type message when facts with
symbol `s` exist but none is numeric. -/
theorem c4_amended (e : Engine) (s : Symbol) :
    resolve_comparable_value e (.Symbol s) =
      (match e.facts.find? (fun f => f.symbol = s) with
      | none => .error "Symbol not found in knowledge base"
      | some _ =>
          match (e.facts.filter (fun f => decide (f.symbol = s))).findSome?
              (fun f => f.value.toNum) with
          | some v => .ok v
          | none =>
              .error
                "Unsupported FactValue type from ComparableValue::Symbol for conversion to f64") := by
  cases hf : e.facts.find? (fun f => f.symbol = s) with
  | none =>
    simp only [resolve_comparable_value, get_fact_from_symbol, hf]
  | some fact =>
    have hsym : fact.symbol = s := by
      have hfs := List.find?_some hf
      simpa using hfs
    have hval : get_fact_value e fact =
        (e.facts.filter (fun f => decide (f.symbol = s))).findSome?
          (fun f => f.value.toNum) := by
      unfold get_fact_value
      rw [hsym]
      exact findSome?_filter (fun f => f.symbol = s) (fun f => f.value.toNum) e.facts
    simp only [resolve_comparable_value, get_fact_from_symbol, hf, hval]

/-- C3 counterexample: the claim that the fact sequence is duplicate-free
after ANY inference call fails even from a duplicate-free state:
`forward_chaining` stages conclusions against the pre-pass fact list only,
so the two rules of `c3_engine` (same always-true premise, same conclusion)
both stage `Picnic = true` and the post-call fact list holds it twice.
(States built with `assert_fact` can also carry duplicates that every
inference call preserves.) -/
theorem c3_counterexample :
    factsNoDupB c3_engine.facts = true ∧
      (forward_chaining c3_engine).toOption.map (fun e2 => factsNoDupB e2.facts) =
        some false := by
  constructor
  · decide
  · decide

/-- C3 amended (changed only as far as the counterexample forces): the
duplicate-free invariant holds for the fixpoint chainer — if the fact
sequence holds no two structurally equal entries before a terminating
`forward_chaining_with_variables` call, it holds none after, because that
loop re-checks containment against the growing fact list before each push.
`specify_goal` never modifies the fact sequence at all (its model returns
only a boolean), while `forward_chaining` and `assert_fact` can introduce
duplicates as the counterexample shows. -/
theorem c3_amended (n : Nat) (e e2 : Engine) (hn : factsNoDupB e.facts = true)
    (h : forward_chaining_with_variables n e = some (.ok e2)) :
    factsNoDupB e2.facts = true := by
  induction n generalizing e with
  | zero => rw [forward_chaining_with_variables] at h; simp at h
  | succ n ih =>
    rw [forward_chaining_with_variables] at h
    cases hp : fcwv_rule_pass e e.rules e.variable_bindings [] with
    | none => rw [hp] at h; simp at h
    | some r =>
      cases r with
      | error m => rw [hp] at h; simp at h
      | ok p =>
        obtain ⟨b, concl⟩ := p
        rw [hp] at h
        dsimp only at h
        have hnodup : factsNoDupB (fcwv_append e.facts concl).1 = true := fcwv_append_nodup hn
        cases hflag : (fcwv_append e.facts concl).2 with
        | true =>
          rw [hflag] at h
          simp only [if_true] at h
          exact ih _ hnodup h
        | false =>
          rw [hflag] at h
          simp only [Bool.false_eq_true, if_false, Option.some.injEq, Except.ok.injEq] at h
          rw [← h]
          exact hnodup

/-- Witness for the amended C3: a duplicate-free engine stays duplicate-free
through a terminating fixpoint run that adds one fact. -/
theorem c3_witness :
    factsNoDupB fw_engine.facts = true ∧
    forward_chaining_with_variables 2 fw_engine = some (.ok fw_engine') ∧
    factsNoDupB fw_engine'.facts = true := by
  have h2 : forward_chaining_with_variables 2 fw_engine = some (.ok fw_engine') := by
    simp [forward_chaining_with_variables, fcwv_rule_pass, evaluate_logical_expression,
      fcwv_append, memF, Fact.beq, FactValue.beq, match_fact, extendB,
      fw_engine, fw_engine', define_rule, assert_fact, newEngine, factW, factP, symW, symP,
      F64.feq]
  exact ⟨by decide, h2, c3_amended 2 fw_engine fw_engine' (by decide) h2⟩

/-- C5: the fixpoint forward chainer is idempotent on facts: whenever one
call of `forward_chaining_with_variables` returns (some fuel suffices) and a
second call on the resulting state returns, the fact sequence after the
second call equals the fact sequence after the first.  (The second call's
first pass stages exactly the conclusions the first call's final pass did,
all already present, so the loop stops immediately.) -/
theorem c5 (n m : Nat) (e e1 e2 : Engine)
    (h1 : forward_chaining_with_variables n e = some (.ok e1))
    (h2 : forward_chaining_with_variables m e1 = some (.ok e2)) :
    e2.facts = e1.facts := by
  obtain ⟨b2, concl, hpass, hmem⟩ := fcwv_fix n e e1 h1
  cases m with
  | zero => rw [forward_chaining_with_variables] at h2; simp at h2
  | succ m =>
    rw [forward_chaining_with_variables] at h2
    rw [hpass] at h2
    dsimp only at h2
    have happ : fcwv_append e1.facts concl = (e1.facts, false) := fcwv_append_all_mem hmem
    rw [happ] at h2
    simp only [Bool.false_eq_true, if_false, Option.some.injEq, Except.ok.injEq] at h2
    rw [← h2]

/-- Witness for C5: one fixpoint run of the one-rule engine adds `Picnic`;
running it again returns the same state, with the same fact sequence. -/
theorem c5_witness :
    forward_chaining_with_variables 2 fw_engine = some (.ok fw_engine') ∧
    forward_chaining_with_variables 1 fw_engine' = some (.ok fw_engine') ∧
    fw_engine'.facts = fw_engine'.facts := by
  have ha : forward_chaining_with_variables 2 fw_engine = some (.ok fw_engine') := by
    simp [forward_chaining_with_variables, fcwv_rule_pass, evaluate_logical_expression,
      fcwv_append, memF, Fact.beq, FactValue.beq, match_fact, extendB,
      fw_engine, fw_engine', define_rule, assert_fact, newEngine, factW, factP, symW, symP,
      F64.feq]
  have hb : forward_chaining_with_variables 1 fw_engine' = some (.ok fw_engine') := by
    simp [forward_chaining_with_variables, fcwv_rule_pass, evaluate_logical_expression,
      fcwv_append, memF, Fact.beq, FactValue.beq, match_fact, extendB,
      fw_engine, fw_engine', define_rule, assert_fact, newEngine, factW, factP, symW, symP,
      F64.feq]
  exact ⟨ha, hb, c5 2 1 fw_engine fw_engine' fw_engine' ha hb⟩

/-- C6: when `forward_chaining_with_variables` returns, the state is a
fixpoint: every rule of the post-call state whose premise evaluates to
`Some` bindings (via `match_rule`, i.e. against the post-call facts and
bindings) has its conclusion present in the post-call fact sequence. -/
theorem c6 (n : Nat) (e e2 : Engine) (r : Rule) (bs : Bindings)
    (h : forward_chaining_with_variables n e = some (.ok e2))
    (hr : r ∈ e2.rules)
    (hm : match_rule e2 r.premise = some (.ok (some bs))) :
    memF r.conclusion e2.facts = true := by
  obtain ⟨b2, concl, hpass, hmem⟩ := fcwv_fix n e e2 h
  have hconcl := pass_concl e2 e2.rules e2.variable_bindings [] b2 concl hpass
  have hf : rule_fires_fw e2 r = true := by
    unfold match_rule at hm
    unfold rule_fires_fw
    cases hv : evaluate_logical_expression 0 e2 r.premise e2.variable_bindings false none with
    | none => rw [hv] at hm; simp at hm
    | some x =>
      cases x with
      | error m2 => rw [hv] at hm; simp [Except.map] at hm
      | ok p =>
        obtain ⟨ob, v⟩ := p
        cases ob with
        | none => rw [hv] at hm; simp [Except.map] at hm
        | some bx => rfl
  apply hmem
  rw [hconcl]
  simp only [List.nil_append]
  exact List.mem_map_of_mem _ (List.mem_filter.mpr ⟨hr, by simp [hf]⟩)

/-- Witness for C6: after the fixpoint run, the one rule of the engine still
fires against the post-state and its conclusion is in the fact list. -/
theorem c6_witness :
    forward_chaining_with_variables 2 fw_engine = some (.ok fw_engine') ∧
    (⟨.AtomicFact factW, factP⟩ : Rule) ∈ fw_engine'.rules ∧
    match_rule fw_engine' (.AtomicFact factW) = some (.ok (some [])) ∧
    memF factP fw_engine'.facts = true := by
  have ha : forward_chaining_with_variables 2 fw_engine = some (.ok fw_engine') := by
    simp [forward_chaining_with_variables, fcwv_rule_pass, evaluate_logical_expression,
      fcwv_append, memF, Fact.beq, FactValue.beq, match_fact, extendB,
      fw_engine, fw_engine', define_rule, assert_fact, newEngine, factW, factP, symW, symP,
      F64.feq]
  have hr : (⟨.AtomicFact factW, factP⟩ : Rule) ∈ fw_engine'.rules := by
    simp [fw_engine', fw_engine, define_rule, assert_fact, newEngine]
  have hm : match_rule fw_engine' (.AtomicFact factW) = some (.ok (some [])) := by
    simp [match_rule, evaluate_logical_expression, fw_engine', fw_engine, define_rule,
      assert_fact, newEngine, match_fact, factW, symW, Except.map]
  exact ⟨ha, hr, hm, c6 2 fw_engine fw_engine' ⟨.AtomicFact factW, factP⟩ [] ha hr hm⟩

/-- C7: the simple forward chainer performs exactly one pass: the post-call
fact sequence is the pre-call sequence followed by the conclusions of
exactly those rules, in definition order, whose premise is true against the
PRE-CALL facts and whose conclusion is not already among the pre-call facts.
Conclusions staged during the pass affect neither premise evaluation nor the
containment check, and no second pass happens (a staged conclusion that
enables another rule does not fire it in the same call). -/
theorem c7 (e e2 : Engine) (h : forward_chaining e = .ok e2) :
    e2.facts = e.facts ++
      ((e.rules.filter (fun r => premise_fires e r && !(memF r.conclusion e.facts))).map
        (fun r => r.conclusion)) := by
  unfold forward_chaining at h
  cases hc : forward_chaining_collect e e.rules with
  | error m => rw [hc] at h; simp at h
  | ok nf =>
    rw [hc] at h
    simp only [Except.ok.injEq] at h
    rw [← h]
    rw [fc_collect_eq e e.rules nf hc]

/-- Witness for C7: the one-rule engine fires its rule once; the post-call
facts are exactly the pre-call facts plus that conclusion. -/
theorem c7_witness :
    forward_chaining fw_engine = .ok fw_engine' ∧
    fw_engine'.facts = fw_engine.facts ++
      ((fw_engine.rules.filter
        (fun r => premise_fires fw_engine r && !(memF r.conclusion fw_engine.facts))).map
        (fun r => r.conclusion)) := by
  have h : forward_chaining fw_engine = .ok fw_engine' := by rfl
  exact ⟨h, c7 fw_engine fw_engine' h⟩

/-- C8: comparison antisymmetry for numeric operands: when both operands
resolve to doubles that are numbers (not `nan`) and the resolved values are
unequal, exactly one of `GreaterThan(a,b)` and `LessThan(a,b)` evaluates to
true.  (With a `nan` operand both comparisons are false, which the spec
covers by its separate IEEE clause; "numeric" here reads as non-`nan`.) -/
theorem c8 (e : Engine) (a b : ComparableValue) (x y : F64)
    (hx : resolve_comparable_value e a = .ok x) (hy : resolve_comparable_value e b = .ok y)
    (hxn : x.isNan = false) (hyn : y.isNan = false) (hne : x ≠ y) :
    (is_premise_true e (.GreaterThan a b) = .ok true ∧
      is_premise_true e (.LessThan a b) = .ok false) ∨
    (is_premise_true e (.GreaterThan a b) = .ok false ∧
      is_premise_true e (.LessThan a b) = .ok true) := by
  have hgt : is_premise_true e (.GreaterThan a b) = .ok (F64.fgt x y) := by
    simp [is_premise_true, compare_values, hx, hy]
  have hlt : is_premise_true e (.LessThan a b) = .ok (F64.flt x y) := by
    simp [is_premise_true, compare_values, hx, hy]
  cases x with
  | nan => simp [F64.isNan] at hxn
  | finite p =>
    cases y with
    | nan => simp [F64.isNan] at hyn
    | finite q =>
      have hpq : p ≠ q := fun hh => hne (by rw [hh])
      rcases lt_or_gt_of_ne hpq with hord | hord
      · right
        rw [hgt, hlt]
        have hnlt : ¬(q < p) := not_lt.mpr hord.le
        constructor
        · simp [F64.fgt, hnlt]
        · simp [F64.flt, hord]
      · left
        rw [hgt, hlt]
        have hnlt : ¬(p < q) := not_lt.mpr hord.le
        constructor
        · simp [F64.fgt, hord]
        · simp [F64.flt, hnlt]

/-- Witness for C8: direct operands 3 and 5 resolve to unequal non-`nan`
doubles; `GreaterThan` is false and `LessThan` is true. -/
theorem c8_witness :
    resolve_comparable_value newEngine (.Direct (.Integer 3)) = .ok (.finite ((3 : Int) : ℚ)) ∧
    resolve_comparable_value newEngine (.Direct (.Integer 5)) = .ok (.finite ((5 : Int) : ℚ)) ∧
    (F64.finite ((3 : Int) : ℚ)).isNan = false ∧
    (F64.finite ((5 : Int) : ℚ)).isNan = false ∧
    F64.finite ((3 : Int) : ℚ) ≠ F64.finite ((5 : Int) : ℚ) ∧
    ((is_premise_true newEngine (.GreaterThan (.Direct (.Integer 3)) (.Direct (.Integer 5))) =
        .ok true ∧
      is_premise_true newEngine (.LessThan (.Direct (.Integer 3)) (.Direct (.Integer 5))) =
        .ok false) ∨
    (is_premise_true newEngine (.GreaterThan (.Direct (.Integer 3)) (.Direct (.Integer 5))) =
        .ok false ∧
      is_premise_true newEngine (.LessThan (.Direct (.Integer 3)) (.Direct (.Integer 5))) =
        .ok true)) := by
  refine ⟨rfl, rfl, rfl, rfl, by decide, ?_⟩
  exact c8 newEngine (.Direct (.Integer 3)) (.Direct (.Integer 5))
    (.finite ((3 : Int) : ℚ)) (.finite ((5 : Int) : ℚ)) rfl rfl rfl rfl (by decide)

/-- C9: `evaluate_logical_expression` returns either `None` or `Some b`
where `b` is exactly the incoming binding map — no expression kind ever adds
or changes a binding — and therefore the "merge" performed by
`forward_chaining_with_variables` (`HashMap::extend` of the map with the
returned copy of itself) never modifies the engine's variable binding map
(stated for maps with distinct keys, which every map built by
`assert_variable` has). -/
theorem c9 :
    (∀ (fuel : Nat) (e : Engine) (x : LogicalOperator) (b : Bindings) (bc : Bool)
        (vis : Option (List Fact)) (b2 : Bindings) (v2 : Option (List Fact)),
        evaluate_logical_expression fuel e x b bc vis = some (.ok (some b2, v2)) → b2 = b) ∧
    (∀ m : Bindings, keysNodupB m = true → extendB m m = m) :=
  ⟨fun fuel e x b bc vis b2 v2 h => bindid_eval fuel e x b bc vis b2 v2 h,
   fun _ hm => extendB_self hm⟩

/-- Witness for C9: a concrete successful evaluation returns the incoming
map unchanged, and extending a concrete one-entry map with itself is the
identity. -/
theorem c9_witness :
    evaluate_logical_expression 0 newEngine (.Not (.AtomicFact factQ)) [("t", .Integer 1)]
      false none = some (.ok (some [("t", .Integer 1)], none)) ∧
    keysNodupB [("t", .Integer 1)] = true ∧
    extendB [("t", .Integer 1)] [("t", .Integer 1)] = [("t", .Integer 1)] := by
  have h1 : evaluate_logical_expression 0 newEngine (.Not (.AtomicFact factQ))
      [("t", .Integer 1)] false none = some (.ok (some [("t", .Integer 1)], none)) := by
    simp [evaluate_logical_expression, newEngine, match_fact, factQ, symQ]
  refine ⟨h1, by decide, ?_⟩
  have hid := c9.1 0 newEngine (.Not (.AtomicFact factQ)) [("t", .Integer 1)] false none
    [("t", .Integer 1)] none h1
  exact c9.2 [("t", .Integer 1)] (by decide)

end SRE
